import Mathlib

/-!
Verification of the piranha-tng bit-packing utilities and of the
polynomial multiplication kernel.

The definitions in the first part of this file are a shallow embedding of
`src/include/piranha/utils/bit_packing.hpp`: the class templates
`signed_bit_packer_impl<T>` / `unsigned_bit_packer_impl<T>` and the
corresponding unpackers, with the word type `T` abstracted by its bit
width `nbits` (`limits_digits<T> + 1` for signed types, `limits_digits<T>`
for unsigned ones).  Machine words are modelled as unbounded integers;
every operation the C++ code performs on the *unsigned* counterpart of `T`
carries an explicit `% 2 ^ nbits`, and the signed accumulator of the
packer is shown (see the claim about packing safety) to stay inside the
representable range, so exact integer arithmetic agrees with the machine
arithmetic there.

The second part models the polynomial layer.  The bodies of
`poly_mul_impl_simple`, `poly_mul_impl_mt_hm`, of `piranha::pow` and of
`key_merge_symbols` for packed monomials are not part of this repository
slice (only their tests and declarations are), so those definitions are
modelled from the specification and are marked as such in their doc
comments.
-/

/-- Error kinds raised by the embedded code: `std::overflow_error`,
`std::out_of_range` and `std::invalid_argument`. -/
inductive PErr where
  | overflow
  | outOfRange
  | invalidArg
  deriving DecidableEq

/-- Result of an operation that can throw.  An `err` result models a C++
exception: the operation produced no new state, so the caller's state is
exactly what it was before the call. -/
inductive PRes (α : Type) where
  | ok (val : α)
  | err (e : PErr)
  deriving DecidableEq

/-- Sequencing of throwing operations: a thrown error propagates. -/
def PRes.bind {α β : Type} : PRes α → (α → PRes β) → PRes β
  | .err e, _ => .err e
  | .ok v, f => f v

@[simp] theorem PRes.bind_ok {α β : Type} (v : α) (f : α → PRes β) :
    PRes.bind (.ok v) f = f v := rfl

@[simp] theorem PRes.bind_err {α β : Type} (e : PErr) (f : α → PRes β) :
    PRes.bind (.err e) f = .err e := rfl

/-- Value carried by an `ok` result, or a default value (used only at
points the C++ code has proven cannot throw). -/
def PRes.getD {α : Type} : PRes α → α → α
  | .ok v, _ => v
  | .err _, d => d

@[simp] theorem PRes.getD_ok {α : Type} (v d : α) : PRes.getD (.ok v) d = v := rfl

/-- Cast of a signed value to the unsigned counterpart of the word type
(two's complement, width `nbits`). -/
def toUnsigned (nbits : Nat) (x : Int) : Nat :=
  (x % (2 ^ nbits : Int)).toNat

/-- Cast of an unsigned word of width `nbits` back to the signed type
(two's complement). -/
def toSigned (nbits : Nat) (v : Nat) : Int :=
  if v < 2 ^ (nbits - 1) then (v : Int) else (v : Int) - 2 ^ nbits

/-- State of `piranha::detail::signed_bit_packer_impl<T>`.  Fields keep the
names of the C++ data members. -/
structure signed_bit_packer_impl where
  m_value : Int
  m_min : Int
  m_max : Int
  m_index : Nat
  m_size : Nat
  m_pbits : Nat
  m_cur_shift : Nat
  deriving DecidableEq

/-- Constructor of `signed_bit_packer_impl<T>`: `nbits` is
`limits_digits<T> + 1`.  Mirrors the three branches of the C++ code
(zero size, size one using the full range of `T`, general size). -/
def signed_bit_packer_impl.init (nbits size : Nat) : PRes signed_bit_packer_impl :=
  if nbits ≤ size then .err .overflow
  else if size = 0 then .ok ⟨0, 0, 0, 0, size, 0, 0⟩
  else if size = 1 then
    .ok ⟨0, -(2 ^ (nbits - 1) : Int), (2 ^ (nbits - 1) : Int) - 1, 0, size, nbits, 0⟩
  else
    .ok ⟨0, -(2 ^ (nbits / size - (if nbits % size = 0 then 1 else 0) - 1) : Int),
         (2 ^ (nbits / size - (if nbits % size = 0 then 1 else 0) - 1) : Int) - 1,
         0, size, nbits / size - (if nbits % size = 0 then 1 else 0), 0⟩

/-- `operator<<` of `signed_bit_packer_impl<T>`: range checks, then
`m_value += n * (T(1) << m_cur_shift)` in exact arithmetic. -/
def signed_bit_packer_impl.push (st : signed_bit_packer_impl) (n : Int) :
    PRes signed_bit_packer_impl :=
  if st.m_index = st.m_size then .err .outOfRange
  else if n < st.m_min ∨ st.m_max < n then .err .overflow
  else .ok { st with
    m_value := st.m_value + n * 2 ^ st.m_cur_shift
    m_index := st.m_index + 1
    m_cur_shift := st.m_cur_shift + st.m_pbits }

/-- `get()` of `signed_bit_packer_impl<T>`. -/
def signed_bit_packer_impl.get (st : signed_bit_packer_impl) : PRes Int :=
  if st.m_index < st.m_size then .err .outOfRange else .ok st.m_value

/-- Push a whole list of values, stopping at the first error (the thrown
exception propagates). -/
def signed_bit_packer_impl.pushList (st : signed_bit_packer_impl) :
    List Int → PRes signed_bit_packer_impl
  | [] => .ok st
  | x :: xs =>
    match st.push x with
    | .err e => .err e
    | .ok st2 => st2.pushList xs

/-- Construct a signed packer of the given size, push all of `xs`, and
finalize: the composite operation exercised by the round-trip laws. -/
def spack (nbits size : Nat) (xs : List Int) : PRes Int :=
  (signed_bit_packer_impl.init nbits size).bind fun st =>
    (st.pushList xs).bind fun st2 => st2.get

/-- Per-slot bit width of the signed packer, as derived in the
constructor. -/
def spk_pbits (nbits size : Nat) : Nat :=
  if size = 1 then nbits else nbits / size - (if nbits % size = 0 then 1 else 0)

/-- Lower end of the allowed per-slot range of the signed packer. -/
def spk_min (nbits size : Nat) : Int := -(2 ^ (spk_pbits nbits size - 1) : Int)

/-- Upper end of the allowed per-slot range of the signed packer. -/
def spk_max (nbits size : Nat) : Int := (2 ^ (spk_pbits nbits size - 1) : Int) - 1

theorem signed_bit_packer_impl.init_ok (nbits size : Nat) (h1 : 1 ≤ size)
    (h2 : size < nbits) :
    signed_bit_packer_impl.init nbits size =
      .ok ⟨0, spk_min nbits size, spk_max nbits size, 0, size,
           spk_pbits nbits size, 0⟩ := by
  unfold signed_bit_packer_impl.init spk_min spk_max spk_pbits
  rcases Nat.eq_or_lt_of_le h1 with h | h
  · simp [← h, Nat.not_le.mpr h2]
    omega
  · have hs1 : size ≠ 1 := by omega
    have hs0 : size ≠ 0 := by omega
    simp [Nat.not_le.mpr h2, hs0, hs1]

/-- State of `piranha::detail::unsigned_bit_packer_impl<T>`.  All data
members are values of the unsigned type `T` or `unsigned`, modelled as
naturals. -/
structure unsigned_bit_packer_impl where
  m_value : Nat
  m_max : Nat
  m_index : Nat
  m_size : Nat
  m_pbits : Nat
  m_cur_shift : Nat
  deriving DecidableEq

/-- Constructor of `unsigned_bit_packer_impl<T>`: `nbits` is
`limits_digits<T>`.  `m_max = static_cast<T>(-1) >> (nbits - m_pbits)`,
where `static_cast<T>(-1) = 2 ^ nbits - 1` and `>>` divides by a power of
two. -/
def unsigned_bit_packer_impl.init (nbits size : Nat) : PRes unsigned_bit_packer_impl :=
  if nbits < size then .err .overflow
  else if size = 0 then .ok ⟨0, 0, 0, size, 0, 0⟩
  else
    .ok ⟨0, (2 ^ nbits - 1) / 2 ^ (nbits - nbits / size), 0, size, nbits / size, 0⟩

/-- `operator<<` of `unsigned_bit_packer_impl<T>`: range check, then
`m_value += n << m_cur_shift` in the wrapping arithmetic of `T`. -/
def unsigned_bit_packer_impl.push (st : unsigned_bit_packer_impl) (nbits : Nat)
    (n : Nat) : PRes unsigned_bit_packer_impl :=
  if st.m_index = st.m_size then .err .outOfRange
  else if st.m_max < n then .err .overflow
  else .ok { st with
    m_value := (st.m_value + n * 2 ^ st.m_cur_shift) % 2 ^ nbits
    m_index := st.m_index + 1
    m_cur_shift := st.m_cur_shift + st.m_pbits }

/-- `get()` of `unsigned_bit_packer_impl<T>`. -/
def unsigned_bit_packer_impl.get (st : unsigned_bit_packer_impl) : PRes Nat :=
  if st.m_index < st.m_size then .err .outOfRange else .ok st.m_value

/-- Push a whole list of values into an unsigned packer. -/
def unsigned_bit_packer_impl.pushList (st : unsigned_bit_packer_impl) (nbits : Nat) :
    List Nat → PRes unsigned_bit_packer_impl
  | [] => .ok st
  | x :: xs =>
    match st.push nbits x with
    | .err e => .err e
    | .ok st2 => st2.pushList nbits xs

/-- Construct an unsigned packer, push all of `xs`, finalize. -/
def upack (nbits size : Nat) (xs : List Nat) : PRes Nat :=
  (unsigned_bit_packer_impl.init nbits size).bind fun st =>
    (st.pushList nbits xs).bind fun st2 => st2.get

/-- Row `size - 1` of the table built by
`piranha::detail::sbp_compute_minmax_packed<T>()`: the minimum and maximum
packed words for a signed packer of the given size.  Row `0` is
`limits_minmax<T>`; every other row packs `size` copies of the per-slot
minimum resp. maximum through an actual `bit_packer`, exactly as the C++
loop does. -/
def sbp_compute_minmax_packed (nbits size : Nat) : Int × Int :=
  if size ≤ 1 then (-(2 ^ (nbits - 1) : Int), (2 ^ (nbits - 1) : Int) - 1)
  else
    ((spack nbits size
        (List.replicate size (-(2 ^ (spk_pbits nbits size - 1) : Int)))).getD 0,
     (spack nbits size
        (List.replicate size ((2 ^ (spk_pbits nbits size - 1) : Int) - 1))).getD 0)

/-- State of `piranha::detail::signed_bit_unpacker_impl<T>`.  `m_min` and
`m_s_value` are values of the unsigned counterpart `uint_t` of `T`. -/
structure signed_bit_unpacker_impl where
  m_value : Int
  m_min : Nat
  m_s_value : Nat
  m_index : Nat
  m_size : Nat
  m_pbits : Nat
  m_cur_shift : Nat
  deriving DecidableEq

/-- Constructor of `signed_bit_unpacker_impl<T>`.  For `size ≥ 2` the
word is range-checked against the precomputed min/max table, then
`m_min = uint_t(-(T(1) << (m_pbits - 1)))` and
`m_s_value = uint_t(n) - uint_t(min_n)` in the wrapping arithmetic of
`uint_t`. -/
def signed_bit_unpacker_impl.init (nbits : Nat) (n : Int) (size : Nat) :
    PRes signed_bit_unpacker_impl :=
  if nbits ≤ size then .err .overflow
  else if size = 0 then
    if n ≠ 0 then .err .invalidArg else .ok ⟨n, 0, 0, 0, size, 0, 0⟩
  else if size = 1 then .ok ⟨n, toUnsigned nbits n, 0, 0, size, 0, 0⟩
  else
    if n < (sbp_compute_minmax_packed nbits size).1 ∨
        (sbp_compute_minmax_packed nbits size).2 < n then .err .overflow
    else
      .ok ⟨n, toUnsigned nbits (-(2 ^ (spk_pbits nbits size - 1) : Int)),
           (toUnsigned nbits n +
             (2 ^ nbits - toUnsigned nbits (sbp_compute_minmax_packed nbits size).1)) %
             2 ^ nbits,
           0, size, spk_pbits nbits size, 0⟩

/-- `operator>>` of `signed_bit_unpacker_impl<T>`: extracts
`(m_s_value % (1 << (m_cur_shift + m_pbits))) / (1 << m_cur_shift) + m_min`
in `uint_t` arithmetic and casts the word back to `T`. -/
def signed_bit_unpacker_impl.pop (st : signed_bit_unpacker_impl) (nbits : Nat) :
    PRes (Int × signed_bit_unpacker_impl) :=
  if st.m_index = st.m_size then .err .outOfRange
  else
    .ok (toSigned nbits
          ((st.m_s_value % 2 ^ (st.m_cur_shift + st.m_pbits) / 2 ^ st.m_cur_shift +
            st.m_min) % 2 ^ nbits),
         { st with m_index := st.m_index + 1, m_cur_shift := st.m_cur_shift + st.m_pbits })

/-- Pop `count` values from a signed unpacker, in order. -/
def signed_bit_unpacker_impl.popList (nbits : Nat) :
    Nat → signed_bit_unpacker_impl → PRes (List Int)
  | 0, _ => .ok []
  | count + 1, st =>
    (st.pop nbits).bind fun xst =>
      (signed_bit_unpacker_impl.popList nbits count xst.2).bind fun xs =>
        .ok (xst.1 :: xs)

/-- Construct a signed unpacker on word `n` and pop `size` values. -/
def sunpack (nbits size : Nat) (n : Int) : PRes (List Int) :=
  (signed_bit_unpacker_impl.init nbits n size).bind fun st =>
    signed_bit_unpacker_impl.popList nbits size st

/-- State of `piranha::detail::unsigned_bit_unpacker_impl<T>`. -/
structure unsigned_bit_unpacker_impl where
  m_value : Nat
  m_mask : Nat
  m_index : Nat
  m_size : Nat
  m_pbits : Nat
  deriving DecidableEq

/-- Constructor of `unsigned_bit_unpacker_impl<T>`: the word is checked
against `max_decodable = T(-1) >> (nbits % size)`, the extraction mask is
`T(-1) >> (nbits - m_pbits)`, and for `size = 1` the shift amount
`m_pbits` is reset to zero to avoid the undefined full-width shift. -/
def unsigned_bit_unpacker_impl.init (nbits : Nat) (n : Nat) (size : Nat) :
    PRes unsigned_bit_unpacker_impl :=
  if nbits < size then .err .overflow
  else if size = 0 then
    if n ≠ 0 then .err .invalidArg else .ok ⟨n, 0, 0, size, 0⟩
  else
    if (2 ^ nbits - 1) / 2 ^ (nbits % size) < n then .err .overflow
    else
      .ok ⟨n, (2 ^ nbits - 1) / 2 ^ (nbits - nbits / size), 0, size,
           if size = 1 then 0 else nbits / size⟩

/-- `operator>>` of `unsigned_bit_unpacker_impl<T>`: masks out the low
`m_pbits` bits and shifts the word down. -/
def unsigned_bit_unpacker_impl.pop (st : unsigned_bit_unpacker_impl) :
    PRes (Nat × unsigned_bit_unpacker_impl) :=
  if st.m_index = st.m_size then .err .outOfRange
  else
    .ok (st.m_value &&& st.m_mask,
         { st with m_index := st.m_index + 1, m_value := st.m_value >>> st.m_pbits })

/-- Pop `count` values from an unsigned unpacker, in order. -/
def unsigned_bit_unpacker_impl.popList :
    Nat → unsigned_bit_unpacker_impl → PRes (List Nat)
  | 0, _ => .ok []
  | count + 1, st =>
    st.pop.bind fun xst =>
      (unsigned_bit_unpacker_impl.popList count xst.2).bind fun xs =>
        .ok (xst.1 :: xs)

/-- Construct an unsigned unpacker on word `n` and pop `size` values. -/
def uunpack (nbits size : Nat) (n : Nat) : PRes (List Nat) :=
  (unsigned_bit_unpacker_impl.init nbits n size).bind fun st =>
    unsigned_bit_unpacker_impl.popList size st

/-- Round trip of the signed codec: pack `xs`, then unpack the word. -/
def sroundtrip (nbits size : Nat) (xs : List Int) : PRes (List Int) :=
  (spack nbits size xs).bind fun w => sunpack nbits size w

/-- Round trip of the unsigned codec: pack `xs`, then unpack the word. -/
def uroundtrip (nbits size : Nat) (xs : List Nat) : PRes (List Nat) :=
  (upack nbits size xs).bind fun w => uunpack nbits size w

/-- Reverse round trip of the signed codec: unpack the word `n`, then
push the extracted values into a fresh packer and finalize. -/
def spackOfUnpack (nbits size : Nat) (n : Int) : PRes Int :=
  (sunpack nbits size n).bind fun xs => spack nbits size xs

/-- Reverse round trip of the unsigned codec. -/
def upackOfUnpack (nbits size : Nat) (n : Nat) : PRes Nat :=
  (uunpack nbits size n).bind fun xs => upack nbits size xs

/-- Maximum allowed per-slot value of the unsigned packer, in closed
form. -/
def upk_max (nbits size : Nat) : Nat := 2 ^ (nbits / size) - 1

/-! Arithmetic toolbox: geometric sums in base `2 ^ p`, values of packed
digit lists, digit extraction, and two's complement casts. -/

/-- Geometric sum `1 + 2^p + (2^p)^2 + ⋯` with `k` summands. -/
def pgeom (p : Nat) : Nat → Nat
  | 0 => 0
  | k + 1 => 1 + 2 ^ p * pgeom p k

/-- Integer value of a list of slots at per-slot width `p`, first slot in
the lowest bits. -/
def packIVal (p : Nat) : List Int → Int
  | [] => 0
  | x :: xs => x + 2 ^ p * packIVal p xs

/-- Natural value of a list of slots at per-slot width `p`. -/
def packNVal (p : Nat) : List Nat → Nat
  | [] => 0
  | x :: xs => x + 2 ^ p * packNVal p xs

/-- Base-`2^p` digits of a natural number, least significant first. -/
def digitsList (p : Nat) : Nat → Nat → List Nat
  | 0, _ => []
  | k + 1, u => u % 2 ^ p :: digitsList p k (u / 2 ^ p)

theorem pgeom_mul_int (p k : Nat) :
    ((2 : Int) ^ p - 1) * (pgeom p k : Int) = 2 ^ (k * p) - 1 := by
  induction k with
  | zero => simp [pgeom]
  | succ k ih =>
    have hp : ((2 : Int) ^ ((k + 1) * p)) = 2 ^ (k * p) * 2 ^ p := by
      rw [add_mul, one_mul, pow_add]
    rw [hp]
    unfold pgeom
    push_cast
    linear_combination ((2 : Int) ^ p) * ih

theorem packIVal_replicate (p k : Nat) (c : Int) :
    packIVal p (List.replicate k c) = c * (pgeom p k : Int) := by
  induction k with
  | zero => simp [pgeom, packIVal]
  | succ k ih =>
    rw [List.replicate_succ]
    unfold packIVal pgeom
    push_cast
    linear_combination ((2 : Int) ^ p) * ih

theorem packIVal_le (p : Nat) (hi : Int) (xs : List Int) (h : ∀ x ∈ xs, x ≤ hi) :
    packIVal p xs ≤ hi * (pgeom p xs.length : Int) := by
  induction xs with
  | nil => simp [packIVal, pgeom]
  | cons x xs ih =>
    have hx : x ≤ hi := h x (List.mem_cons_self x xs)
    have hrest := ih (fun y hy => h y (List.mem_cons_of_mem x hy))
    unfold packIVal
    rw [List.length_cons]
    unfold pgeom
    push_cast
    have h2p : (0 : Int) ≤ 2 ^ p := by positivity
    nlinarith [mul_le_mul_of_nonneg_left hrest h2p]

theorem packIVal_ge (p : Nat) (lo : Int) (xs : List Int) (h : ∀ x ∈ xs, lo ≤ x) :
    lo * (pgeom p xs.length : Int) ≤ packIVal p xs := by
  induction xs with
  | nil => simp [packIVal, pgeom]
  | cons x xs ih =>
    have hx : lo ≤ x := h x (List.mem_cons_self x xs)
    have hrest := ih (fun y hy => h y (List.mem_cons_of_mem x hy))
    unfold packIVal
    rw [List.length_cons]
    unfold pgeom
    push_cast
    have h2p : (0 : Int) ≤ 2 ^ p := by positivity
    nlinarith [mul_le_mul_of_nonneg_left hrest h2p]

theorem pgeom_le (p k : Nat) (hp : 1 ≤ p) : (pgeom p k : Int) ≤ 2 ^ (k * p) - 1 := by
  have h := pgeom_mul_int p k
  have h2 : (2 : Int) ≤ 2 ^ p := by
    have h2n : (2 : Nat) ^ 1 ≤ 2 ^ p := Nat.pow_le_pow_right (by norm_num) hp
    have h2n2 : (2 : Nat) ≤ 2 ^ p := by simpa using h2n
    exact_mod_cast h2n2
  have hg : (0 : Int) ≤ (pgeom p k : Int) := by positivity
  nlinarith [pgeom_mul_int p k]

theorem pgeom_bound (p k : Nat) (hp : 1 ≤ p) :
    2 ^ (p - 1) * (pgeom p k : Int) ≤ 2 ^ (k * p) - 1 := by
  have hsplit : (2 : Int) ^ p = 2 * 2 ^ (p - 1) := by
    rw [← pow_succ']
    congr 1
    omega
  have h1 := pgeom_mul_int p k
  have h2 := pgeom_le p k hp
  have hg : (0 : Int) ≤ (pgeom p k : Int) := by positivity
  nlinarith [hg]

theorem packNVal_lt (p : Nat) (us : List Nat) (h : ∀ u ∈ us, u < 2 ^ p) :
    packNVal p us < 2 ^ (us.length * p) := by
  induction us with
  | nil => simp [packNVal]
  | cons u us ih =>
    have hu : u < 2 ^ p := h u (List.mem_cons_self u us)
    have hrest := ih (fun y hy => h y (List.mem_cons_of_mem u hy))
    unfold packNVal
    rw [List.length_cons, add_mul, one_mul, pow_add]
    calc u + 2 ^ p * packNVal p us
        < 2 ^ p + 2 ^ p * packNVal p us := by omega
      _ = 2 ^ p * (packNVal p us + 1) := by ring
      _ ≤ 2 ^ p * 2 ^ (us.length * p) := by
          apply Nat.mul_le_mul_left
          omega
      _ = 2 ^ (us.length * p) * 2 ^ p := by ring

theorem digitsList_packNVal (p k : Nat) (us : List Nat) (h : ∀ u ∈ us, u < 2 ^ p)
    (hk : us.length = k) : digitsList p k (packNVal p us) = us := by
  induction k generalizing us with
  | zero =>
    rw [List.length_eq_zero] at hk
    simp [hk, digitsList]
  | succ k ih =>
    match us with
    | u :: us =>
      have hu : u < 2 ^ p := h u (List.mem_cons_self u us)
      have h0 : 0 < 2 ^ p := Nat.two_pow_pos p
      unfold digitsList packNVal
      have hmod : (u + 2 ^ p * packNVal p us) % 2 ^ p = u := by
        rw [Nat.add_mul_mod_self_left, Nat.mod_eq_of_lt hu]
      have hdiv : (u + 2 ^ p * packNVal p us) / 2 ^ p = packNVal p us := by
        rw [Nat.add_mul_div_left _ _ h0, Nat.div_eq_of_lt hu, Nat.zero_add]
      rw [hmod, hdiv, ih us (fun y hy => h y (List.mem_cons_of_mem u hy))
        (by simpa using hk)]

theorem packNVal_digitsList (p k u : Nat) (h : u < 2 ^ (k * p)) :
    packNVal p (digitsList p k u) = u := by
  induction k generalizing u with
  | zero =>
    rw [Nat.zero_mul, pow_zero] at h
    simp [digitsList, packNVal]
    omega
  | succ k ih =>
    unfold digitsList packNVal
    have hdivlt : u / 2 ^ p < 2 ^ (k * p) := by
      apply Nat.div_lt_of_lt_mul
      rw [← pow_add]
      calc u < 2 ^ ((k + 1) * p) := h
        _ = 2 ^ (p + k * p) := by congr 1; ring
    rw [ih _ hdivlt, Nat.mod_add_div]

theorem digitsList_length (p k u : Nat) : (digitsList p k u).length = k := by
  induction k generalizing u with
  | zero => simp [digitsList]
  | succ k ih => simp [digitsList, ih]

theorem digitsList_lt (p k u : Nat) (x : Nat) (hx : x ∈ digitsList p k u) :
    x < 2 ^ p := by
  induction k generalizing u with
  | zero => simp [digitsList] at hx
  | succ k ih =>
    unfold digitsList at hx
    rcases List.mem_cons.mp hx with h | h
    · subst h
      exact Nat.mod_lt _ (Nat.two_pow_pos p)
    · exact ih _ h

theorem mul_sub_one_div (x y : Nat) (hx : 1 ≤ x) (hy : 1 ≤ y) :
    (x * y - 1) / y = x - 1 := by
  obtain ⟨z, rfl⟩ : ∃ z, x = z + 1 := ⟨x - 1, by omega⟩
  have e1 : (z + 1) * y = z * y + y := by ring
  rw [e1, Nat.add_sub_assoc hy, Nat.add_comm, Nat.mul_comm,
    Nat.add_mul_div_left _ _ (by omega : 0 < y), Nat.div_eq_of_lt (by omega),
    Nat.zero_add]
  omega

theorem two_pow_sub_one_div (a b : Nat) (h : b ≤ a) :
    (2 ^ a - 1) / 2 ^ (a - b) = 2 ^ b - 1 := by
  have hsplit : (2 : Nat) ^ a = 2 ^ b * 2 ^ (a - b) := by
    rw [← pow_add]
    congr 1
    omega
  rw [hsplit]
  exact mul_sub_one_div _ _ Nat.one_le_two_pow Nat.one_le_two_pow

theorem toUnsigned_cast (nbits : Nat) (x : Int) :
    (toUnsigned nbits x : Int) = x % (2 ^ nbits : Int) := by
  unfold toUnsigned
  rw [Int.toNat_of_nonneg (Int.emod_nonneg x (by positivity))]

theorem toUnsigned_lt (nbits : Nat) (x : Int) : toUnsigned nbits x < 2 ^ nbits := by
  have h := toUnsigned_cast nbits x
  have h2 : x % (2 ^ nbits : Int) < 2 ^ nbits := by
    apply Int.emod_lt_of_pos
    positivity
  have : (toUnsigned nbits x : Int) < ((2 ^ nbits : Nat) : Int) := by
    rw [h]
    push_cast
    exact h2
  exact_mod_cast this

theorem emod_eq_of_range (x m : Int) (h1 : 0 ≤ x) (h2 : x < m) : x % m = x :=
  Int.emod_eq_of_lt h1 h2

theorem toSigned_toUnsigned (nbits : Nat) (x : Int) (hn : 1 ≤ nbits)
    (h1 : -(2 ^ (nbits - 1) : Int) ≤ x) (h2 : x ≤ 2 ^ (nbits - 1) - 1) :
    toSigned nbits (toUnsigned nbits x) = x := by
  have hsplit : ((2 : Int) ^ nbits) = 2 * 2 ^ (nbits - 1) := by
    rw [← pow_succ']
    congr 1
    omega
  have hcast := toUnsigned_cast nbits x
  rcases le_or_lt 0 x with hx | hx
  · have hmod : x % (2 ^ nbits : Int) = x := by
      apply emod_eq_of_range
      · exact hx
      · omega
    have hval : (toUnsigned nbits x : Int) = x := by rw [hcast, hmod]
    unfold toSigned
    have hlt : toUnsigned nbits x < 2 ^ (nbits - 1) := by
      have : (toUnsigned nbits x : Int) < ((2 ^ (nbits - 1) : Nat) : Int) := by
        rw [hval]
        push_cast
        omega
      exact_mod_cast this
    rw [if_pos hlt, hval]
  · have hmod : x % (2 ^ nbits : Int) = x + 2 ^ nbits := by
      have : x % (2 ^ nbits : Int) = (x + 2 ^ nbits) % 2 ^ nbits := by
        rw [Int.add_emod, Int.emod_self, add_zero, Int.emod_emod_of_dvd]
        exact dvd_refl _
      rw [this]
      apply emod_eq_of_range
      · omega
      · omega
    have hval : (toUnsigned nbits x : Int) = x + 2 ^ nbits := by rw [hcast, hmod]
    unfold toSigned
    have hge : ¬ toUnsigned nbits x < 2 ^ (nbits - 1) := by
      intro hcon
      have : (toUnsigned nbits x : Int) < ((2 ^ (nbits - 1) : Nat) : Int) := by
        exact_mod_cast hcon
      rw [hval] at this
      push_cast at this
      omega
    rw [if_neg hge, hval]
    ring

theorem signed_pushList_ok (xs : List Int) : ∀ (v mn mx : Int) (i k p s : Nat),
    i + xs.length ≤ k → (∀ x ∈ xs, mn ≤ x ∧ x ≤ mx) →
    signed_bit_packer_impl.pushList ⟨v, mn, mx, i, k, p, s⟩ xs =
      .ok ⟨v + packIVal p xs * 2 ^ s, mn, mx, i + xs.length, k, p,
           s + xs.length * p⟩ := by
  induction xs with
  | nil =>
    intro v mn mx i k p s _ _
    simp [signed_bit_packer_impl.pushList, packIVal]
  | cons x xs ih =>
    intro v mn mx i k p s hlen hin
    have hik : ¬ (i = k) := by
      simp only [List.length_cons] at hlen
      omega
    have hx := hin x (List.mem_cons_self x xs)
    have hrange : ¬ (x < mn ∨ mx < x) := by
      push_neg
      omega
    rw [signed_bit_packer_impl.pushList]
    simp only [signed_bit_packer_impl.push, if_neg hik, if_neg hrange]
    rw [ih (v + x * 2 ^ s) mn mx (i + 1) k p (s + p)
      (by simp only [List.length_cons] at hlen; omega)
      (fun y hy => hin y (List.mem_cons_of_mem x hy))]
    simp only [PRes.ok.injEq, signed_bit_packer_impl.mk.injEq]
    refine ⟨?_, trivial, trivial, ?_, trivial, trivial, ?_⟩
    · rw [packIVal, pow_add]
      ring
    · simp only [List.length_cons]
      omega
    · simp only [List.length_cons]
      ring

theorem spack_ok (nbits size : Nat) (xs : List Int) (h1 : 1 ≤ size)
    (h2 : size < nbits) (hlen : xs.length = size)
    (hin : ∀ x ∈ xs, spk_min nbits size ≤ x ∧ x ≤ spk_max nbits size) :
    spack nbits size xs = .ok (packIVal (spk_pbits nbits size) xs) := by
  unfold spack
  rw [signed_bit_packer_impl.init_ok nbits size h1 h2, PRes.bind_ok]
  rw [signed_pushList_ok xs 0 _ _ 0 size (spk_pbits nbits size) 0 (by omega) hin,
    PRes.bind_ok]
  simp [signed_bit_packer_impl.get, hlen]

theorem unsigned_pushList_ok (nbits : Nat) (xs : List Nat) :
    ∀ (v mx i k p s : Nat),
    i + xs.length ≤ k → (∀ x ∈ xs, x ≤ mx) → v < 2 ^ nbits →
    unsigned_bit_packer_impl.pushList ⟨v, mx, i, k, p, s⟩ nbits xs =
      .ok ⟨(v + packNVal p xs * 2 ^ s) % 2 ^ nbits, mx, i + xs.length, k, p,
           s + xs.length * p⟩ := by
  induction xs with
  | nil =>
    intro v mx i k p s _ _ hv
    simp [unsigned_bit_packer_impl.pushList, packNVal, Nat.mod_eq_of_lt hv]
  | cons x xs ih =>
    intro v mx i k p s hlen hin hv
    have hik : ¬ (i = k) := by
      simp only [List.length_cons] at hlen
      omega
    have hx := hin x (List.mem_cons_self x xs)
    have hrange : ¬ (mx < x) := by omega
    rw [unsigned_bit_packer_impl.pushList]
    simp only [unsigned_bit_packer_impl.push, if_neg hik, if_neg hrange]
    rw [ih ((v + x * 2 ^ s) % 2 ^ nbits) mx (i + 1) k p (s + p)
      (by simp only [List.length_cons] at hlen; omega)
      (fun y hy => hin y (List.mem_cons_of_mem x hy))
      (Nat.mod_lt _ (Nat.two_pow_pos nbits))]
    simp only [PRes.ok.injEq, unsigned_bit_packer_impl.mk.injEq]
    refine ⟨?_, trivial, ?_, trivial, trivial, ?_⟩
    · rw [Nat.mod_add_mod]
      congr 1
      rw [packNVal, pow_add]
      ring
    · simp only [List.length_cons]
      omega
    · simp only [List.length_cons]
      ring

theorem upk_max_eq (nbits size : Nat) :
    (2 ^ nbits - 1) / 2 ^ (nbits - nbits / size) = upk_max nbits size := by
  unfold upk_max
  exact two_pow_sub_one_div nbits (nbits / size) (Nat.div_le_self nbits size)

theorem upack_ok (nbits size : Nat) (xs : List Nat) (h1 : 1 ≤ size)
    (h2 : size ≤ nbits) (hlen : xs.length = size)
    (hin : ∀ x ∈ xs, x ≤ upk_max nbits size) :
    upack nbits size xs = .ok (packNVal (nbits / size) xs) := by
  have hlt : ∀ x ∈ xs, x < 2 ^ (nbits / size) := by
    intro x hx
    have := hin x hx
    unfold upk_max at this
    have hpos := Nat.two_pow_pos (nbits / size)
    omega
  have hval : packNVal (nbits / size) xs < 2 ^ nbits := by
    calc packNVal (nbits / size) xs < 2 ^ (xs.length * (nbits / size)) :=
        packNVal_lt _ xs hlt
      _ ≤ 2 ^ nbits := by
        apply Nat.pow_le_pow_right (by norm_num)
        rw [hlen]
        calc size * (nbits / size) = nbits / size * size := by ring
          _ ≤ nbits := Nat.div_mul_le_self nbits size
  unfold upack unsigned_bit_packer_impl.init
  rw [if_neg (by omega : ¬ (nbits < size)), if_neg (by omega : ¬ (size = 0))]
  rw [upk_max_eq nbits size, PRes.bind_ok]
  rw [unsigned_pushList_ok nbits xs 0 _ 0 size (nbits / size) 0 (by omega) hin
    (Nat.two_pow_pos nbits), PRes.bind_ok]
  simp [unsigned_bit_packer_impl.get, hlen, Nat.mod_eq_of_lt hval]

theorem spk_pbits_pos (nbits size : Nat) (h1 : 1 ≤ size) (h2 : size < nbits) :
    1 ≤ spk_pbits nbits size := by
  unfold spk_pbits
  rcases eq_or_ne size 1 with h | h
  · rw [if_pos h]
    omega
  · rw [if_neg h]
    have hq : 1 ≤ nbits / size := (Nat.one_le_div_iff (by omega)).mpr (by omega)
    rcases eq_or_ne (nbits % size) 0 with hr | hr
    · rw [if_pos hr]
      obtain ⟨q, hqe⟩ := Nat.dvd_of_mod_eq_zero hr
      subst hqe
      rw [Nat.mul_div_cancel_left q (by omega : 0 < size)]
      have h1q : 1 < q := by
        by_contra hc
        push_neg at hc
        interval_cases q
        all_goals omega
      omega
    · rw [if_neg hr]
      omega

theorem spk_size_mul_lt (nbits size : Nat) (h1 : 2 ≤ size) (h2 : size < nbits) :
    size * spk_pbits nbits size < nbits := by
  unfold spk_pbits
  rw [if_neg (by omega : ¬ size = 1)]
  rcases eq_or_ne (nbits % size) 0 with hr | hr
  · rw [if_pos hr]
    obtain ⟨q, hqe⟩ := Nat.dvd_of_mod_eq_zero hr
    subst hqe
    rw [Nat.mul_div_cancel_left q (by omega : 0 < size)]
    have h1q : 1 ≤ q := by
      by_contra hc
      push_neg at hc
      interval_cases q
      all_goals omega
    obtain ⟨q2, rfl⟩ : ∃ q2, q = q2 + 1 := ⟨q - 1, by omega⟩
    have e2 : q2 + 1 - 1 = q2 := by omega
    have e : size * (q2 + 1) = size * q2 + size := by ring
    rw [e2, e]
    exact Nat.lt_add_of_pos_right (by omega)
  · rw [if_neg hr, Nat.sub_zero]
    have hdm := Nat.div_add_mod nbits size
    have hrlt : 0 < nbits % size := Nat.pos_of_ne_zero hr
    omega

theorem spk_pbits_lt (nbits size : Nat) (h1 : 2 ≤ size) (h2 : size < nbits) :
    spk_pbits nbits size < nbits := by
  have h := spk_size_mul_lt nbits size h1 h2
  have : spk_pbits nbits size ≤ size * spk_pbits nbits size :=
    Nat.le_mul_of_pos_left _ (by omega)
  omega

theorem toUnsigned_neg_pow (nbits q : Nat) (h : q < nbits) :
    toUnsigned nbits (-(2 ^ q : Int)) = 2 ^ nbits - 2 ^ q := by
  have hq : (2 : Int) ^ q ≤ 2 ^ nbits := by
    apply pow_le_pow_right₀ (by norm_num)
    omega
  have hq0 : (0 : Int) < 2 ^ q := by positivity
  have hmod : (-(2 ^ q : Int)) % 2 ^ nbits = 2 ^ nbits - 2 ^ q := by
    have e : (-(2 ^ q : Int)) = (2 ^ nbits - 2 ^ q) + 2 ^ nbits * (-1) := by ring
    rw [e, Int.add_mul_emod_self_left]
    apply emod_eq_of_range
    · omega
    · omega
  have hcast := toUnsigned_cast nbits (-(2 ^ q : Int))
  rw [hmod] at hcast
  have hqn : (2 : Nat) ^ q ≤ 2 ^ nbits := Nat.pow_le_pow_right (by norm_num) (by omega)
  have : ((2 ^ nbits - 2 ^ q : Nat) : Int) = (2 ^ nbits - 2 ^ q : Int) := by
    push_cast [hqn]
    try ring
  omega

theorem pop_value (nbits p d : Nat) (hp : 1 ≤ p) (hpn : p < nbits) (hd : d < 2 ^ p) :
    toSigned nbits ((d + (2 ^ nbits - 2 ^ (p - 1))) % 2 ^ nbits) =
      (d : Int) - 2 ^ (p - 1) := by
  have hA : (2 : Nat) ^ (p - 1) ≤ 2 ^ (nbits - 1) :=
    Nat.pow_le_pow_right (by norm_num) (by omega)
  have hB : (2 : Nat) ^ (nbits - 1) * 2 = 2 ^ nbits := by
    rw [← pow_succ]
    congr 1
    omega
  have hC : (2 : Nat) ^ (p - 1) * 2 = 2 ^ p := by
    rw [← pow_succ]
    congr 1
    omega
  have h2p : (2 : Nat) ^ p ≤ 2 ^ nbits := Nat.pow_le_pow_right (by norm_num) (by omega)
  have hD : (2 : Nat) ^ (p - 1) ≤ 2 ^ nbits := by omega
  rcases lt_or_le d (2 ^ (p - 1)) with hcase | hcase
  · rw [Nat.mod_eq_of_lt (by omega)]
    unfold toSigned
    rw [if_neg (by omega)]
    rw [Nat.cast_add, Nat.cast_sub hD]
    push_cast
    ring
  · have e : d + (2 ^ nbits - 2 ^ (p - 1)) = 2 ^ nbits + (d - 2 ^ (p - 1)) := by omega
    rw [e, Nat.add_mod_left, Nat.mod_eq_of_lt (by omega)]
    unfold toSigned
    rw [if_pos (by omega)]
    rw [Nat.cast_sub hcase]
    push_cast
    ring

/-- Digits produced by the signed unpacker: each popped value is a
base-`2^p` digit shifted back by the per-slot minimum. -/
def sdigitList (p : Nat) : Nat → Nat → List Int
  | 0, _ => []
  | k + 1, u => (((u % 2 ^ p : Nat) : Int) - 2 ^ (p - 1)) :: sdigitList p k (u / 2 ^ p)

theorem sdigitList_eq (p k : Nat) : ∀ u,
    sdigitList p k u =
      (digitsList p k u).map (fun d : Nat => (d : Int) - 2 ^ (p - 1)) := by
  induction k with
  | zero => intro u; simp [sdigitList, digitsList]
  | succ k ih => intro u; simp [sdigitList, digitsList, ih]

theorem signed_pop_ok (nbits : Nat) (st : signed_bit_unpacker_impl)
    (h : st.m_index ≠ st.m_size) :
    st.pop nbits = .ok
      (toSigned nbits
        ((st.m_s_value % 2 ^ (st.m_cur_shift + st.m_pbits) / 2 ^ st.m_cur_shift +
          st.m_min) % 2 ^ nbits),
       { st with m_index := st.m_index + 1,
                 m_cur_shift := st.m_cur_shift + st.m_pbits }) := by
  unfold signed_bit_unpacker_impl.pop
  rw [if_neg h]

theorem signed_popList_ok (nbits p : Nat) (hp : 1 ≤ p) (hpn : p < nbits) (r : Nat) :
    ∀ (val : Int) (u i k c : Nat), i + r ≤ k →
    signed_bit_unpacker_impl.popList nbits r
        ⟨val, 2 ^ nbits - 2 ^ (p - 1), u, i, k, p, c⟩ =
      .ok (sdigitList p r (u / 2 ^ c)) := by
  induction r with
  | zero =>
    intro val u i k c _
    simp [signed_bit_unpacker_impl.popList, sdigitList]
  | succ r ih =>
    intro val u i k c hik
    rw [signed_bit_unpacker_impl.popList]
    rw [signed_pop_ok nbits _ (by dsimp only; omega), PRes.bind_ok]
    dsimp only
    rw [ih val u (i + 1) k (c + p) (by omega), PRes.bind_ok]
    have hd : u % 2 ^ (c + p) / 2 ^ c = u / 2 ^ c % 2 ^ p := by
      rw [pow_add]
      exact Nat.mod_mul_right_div_self u (2 ^ c) (2 ^ p)
    have hdd : u / 2 ^ (c + p) = u / 2 ^ c / 2 ^ p := by
      rw [pow_add, Nat.div_div_eq_div_mul]
    rw [hd, hdd]
    rw [sdigitList]
    rw [pop_value nbits p _ hp hpn (Nat.mod_lt _ (Nat.two_pow_pos p))]

theorem toUnsigned_sub (nbits : Nat) (a b : Int) (hab : 0 ≤ a - b)
    (hlt : a - b < 2 ^ nbits) :
    (toUnsigned nbits a + (2 ^ nbits - toUnsigned nbits b)) % 2 ^ nbits =
      (a - b).toNat := by
  have hble : toUnsigned nbits b ≤ 2 ^ nbits := (toUnsigned_lt nbits b).le
  have cast_eq :
      (((toUnsigned nbits a + (2 ^ nbits - toUnsigned nbits b)) % 2 ^ nbits : Nat) : Int)
        = (a - b) % 2 ^ nbits := by
    push_cast [hble]
    rw [toUnsigned_cast, toUnsigned_cast]
    have e : a % (2 : Int) ^ nbits + (2 ^ nbits - b % 2 ^ nbits)
        = (a % 2 ^ nbits - b % 2 ^ nbits) + 2 ^ nbits * 1 := by ring
    rw [e, Int.add_mul_emod_self_left, ← Int.sub_emod]
  have rhs_cast : (((a - b).toNat : Nat) : Int) = (a - b) % 2 ^ nbits := by
    rw [Int.toNat_of_nonneg hab, emod_eq_of_range _ _ hab hlt]
  have : (((toUnsigned nbits a + (2 ^ nbits - toUnsigned nbits b)) % 2 ^ nbits : Nat) : Int)
      = (((a - b).toNat : Nat) : Int) := by rw [cast_eq, rhs_cast]
  exact_mod_cast this

theorem spk_min_le_max (nbits size : Nat) :
    spk_min nbits size ≤ spk_max nbits size := by
  unfold spk_min spk_max
  have : (0 : Int) < 2 ^ (spk_pbits nbits size - 1) := by positivity
  omega

theorem sbp_minmax_eq (nbits size : Nat) (h2 : 2 ≤ size) (hlt : size < nbits) :
    sbp_compute_minmax_packed nbits size =
      (spk_min nbits size * (pgeom (spk_pbits nbits size) size : Int),
       spk_max nbits size * (pgeom (spk_pbits nbits size) size : Int)) := by
  unfold sbp_compute_minmax_packed
  rw [if_neg (by omega : ¬ size ≤ 1)]
  have hlo : spack nbits size (List.replicate size (spk_min nbits size)) =
      .ok (spk_min nbits size * (pgeom (spk_pbits nbits size) size : Int)) := by
    rw [spack_ok nbits size _ (by omega) hlt (List.length_replicate size _)
      (fun x hx => by
        rw [List.eq_of_mem_replicate hx]
        exact ⟨le_refl _, spk_min_le_max nbits size⟩)]
    rw [packIVal_replicate]
  have hhi : spack nbits size (List.replicate size (spk_max nbits size)) =
      .ok (spk_max nbits size * (pgeom (spk_pbits nbits size) size : Int)) := by
    rw [spack_ok nbits size _ (by omega) hlt (List.length_replicate size _)
      (fun x hx => by
        rw [List.eq_of_mem_replicate hx]
        exact ⟨spk_min_le_max nbits size, le_refl _⟩)]
    rw [packIVal_replicate]
  have elo : (-(2 ^ (spk_pbits nbits size - 1) : Int)) = spk_min nbits size := rfl
  have ehi : ((2 ^ (spk_pbits nbits size - 1) : Int) - 1) = spk_max nbits size := rfl
  rw [elo, ehi, hlo, hhi]
  rfl

theorem sbp_minmax_spread (nbits size : Nat) (h2 : 2 ≤ size) (hlt : size < nbits) :
    (sbp_compute_minmax_packed nbits size).2 - (sbp_compute_minmax_packed nbits size).1
      = 2 ^ (size * spk_pbits nbits size) - 1 := by
  rw [sbp_minmax_eq nbits size h2 hlt]
  dsimp only
  have hp : 1 ≤ spk_pbits nbits size := spk_pbits_pos nbits size (by omega) hlt
  have hg := pgeom_mul_int (spk_pbits nbits size) size
  unfold spk_max spk_min
  have hC : ((2 : Int) ^ (spk_pbits nbits size - 1)) * 2 = 2 ^ spk_pbits nbits size := by
    rw [mul_comm, ← pow_succ']
    congr 1
    omega
  linear_combination hg + (pgeom (spk_pbits nbits size) size : Int) * hC

theorem signed_unpacker_init_ok (nbits size : Nat) (n : Int) (h2 : 2 ≤ size)
    (hlt : size < nbits)
    (hmin : (sbp_compute_minmax_packed nbits size).1 ≤ n)
    (hmax : n ≤ (sbp_compute_minmax_packed nbits size).2) :
    signed_bit_unpacker_impl.init nbits n size =
      .ok ⟨n, 2 ^ nbits - 2 ^ (spk_pbits nbits size - 1),
           (n - (sbp_compute_minmax_packed nbits size).1).toNat, 0, size,
           spk_pbits nbits size, 0⟩ := by
  unfold signed_bit_unpacker_impl.init
  rw [if_neg (by omega : ¬ nbits ≤ size), if_neg (by omega : ¬ size = 0),
    if_neg (by omega : ¬ size = 1), if_neg (by push_neg; exact ⟨hmin, hmax⟩)]
  have hdiff_lt : n - (sbp_compute_minmax_packed nbits size).1 < 2 ^ nbits := by
    have hs := sbp_minmax_spread nbits size h2 hlt
    have hmul := spk_size_mul_lt nbits size h2 hlt
    have hpow : (2 : Int) ^ (size * spk_pbits nbits size) ≤ 2 ^ nbits := by
      apply pow_le_pow_right₀ (by norm_num)
      omega
    omega
  rw [toUnsigned_neg_pow nbits _ (by
    have := spk_pbits_lt nbits size h2 hlt
    omega)]
  rw [toUnsigned_sub nbits n _ (by omega) hdiff_lt]

theorem sunpack_ok2 (nbits size : Nat) (n : Int) (h2 : 2 ≤ size) (hlt : size < nbits)
    (hmin : (sbp_compute_minmax_packed nbits size).1 ≤ n)
    (hmax : n ≤ (sbp_compute_minmax_packed nbits size).2) :
    sunpack nbits size n =
      .ok (sdigitList (spk_pbits nbits size) size
        ((n - (sbp_compute_minmax_packed nbits size).1).toNat)) := by
  unfold sunpack
  rw [signed_unpacker_init_ok nbits size n h2 hlt hmin hmax, PRes.bind_ok]
  have hp : 1 ≤ spk_pbits nbits size := spk_pbits_pos nbits size (by omega) hlt
  have hpn : spk_pbits nbits size < nbits := spk_pbits_lt nbits size h2 hlt
  rw [signed_popList_ok nbits _ hp hpn size n _ 0 size 0 (by omega)]
  rw [pow_zero, Nat.div_one]

theorem packNVal_map_toNat (p : Nat) (t : Int) (xs : List Int)
    (h : ∀ x ∈ xs, 0 ≤ x + t) :
    ((packNVal p (xs.map (fun x => (x + t).toNat)) : Nat) : Int) =
      packIVal p xs + t * (pgeom p xs.length : Int) := by
  induction xs with
  | nil => simp [packNVal, packIVal, pgeom]
  | cons x xs ih =>
    have hx : ((x + t).toNat : Int) = x + t :=
      Int.toNat_of_nonneg (h x (List.mem_cons_self x xs))
    have hrest := ih (fun y hy => h y (List.mem_cons_of_mem x hy))
    simp only [List.map_cons, packNVal, packIVal, List.length_cons, pgeom]
    push_cast
    push_cast at hrest
    linear_combination hx + ((2 : Int) ^ p) * hrest

theorem packIVal_sdigitList (p k : Nat) : ∀ u : Nat,
    packIVal p (sdigitList p k u) =
      ((packNVal p (digitsList p k u) : Nat) : Int) -
        2 ^ (p - 1) * (pgeom p k : Int) := by
  induction k with
  | zero => intro u; simp [sdigitList, digitsList, packIVal, packNVal, pgeom]
  | succ k ih =>
    intro u
    simp only [sdigitList, digitsList, packIVal, packNVal, pgeom]
    rw [ih (u / 2 ^ p)]
    push_cast
    ring

theorem sdigitList_length (p k : Nat) : ∀ u, (sdigitList p k u).length = k := by
  induction k with
  | zero => intro u; simp [sdigitList]
  | succ k ih => intro u; simp [sdigitList, ih]

theorem sdigitList_mem_range (p k u : Nat) (hp : 1 ≤ p) :
    ∀ x ∈ sdigitList p k u, -((2 : Int) ^ (p - 1)) ≤ x ∧ x ≤ 2 ^ (p - 1) - 1 := by
  intro x hx
  rw [sdigitList_eq] at hx
  obtain ⟨d, hd, rfl⟩ := List.mem_map.mp hx
  have hdlt : d < 2 ^ p := digitsList_lt p k u d hd
  have hCn : (2 : Nat) ^ (p - 1) * 2 = 2 ^ p := by
    rw [← pow_succ]
    congr 1
    omega
  have hcast1 : (((2 : Nat) ^ (p - 1) : Nat) : Int) = 2 ^ (p - 1) := by push_cast; ring
  have hcast2 : (((2 : Nat) ^ p : Nat) : Int) = 2 ^ p := by push_cast; ring
  omega

theorem sdigitList_of_packIVal (p size : Nat) (hp : 1 ≤ p) (xs : List Int)
    (hlen : xs.length = size)
    (hin : ∀ x ∈ xs, -((2 : Int) ^ (p - 1)) ≤ x ∧ x ≤ 2 ^ (p - 1) - 1) :
    sdigitList p size
      ((packIVal p xs + 2 ^ (p - 1) * (pgeom p size : Int)).toNat) = xs := by
  have hCn : (2 : Nat) ^ (p - 1) * 2 = 2 ^ p := by
    rw [← pow_succ]
    congr 1
    omega
  have hcast1 : (((2 : Nat) ^ (p - 1) : Nat) : Int) = 2 ^ (p - 1) := by push_cast; ring
  have hcast2 : (((2 : Nat) ^ p : Nat) : Int) = 2 ^ p := by push_cast; ring
  have hnn : ∀ x ∈ xs, 0 ≤ x + 2 ^ (p - 1) := by
    intro x hx
    have := (hin x hx).1
    omega
  have hcast := packNVal_map_toNat p (2 ^ (p - 1)) xs hnn
  rw [hlen] at hcast
  have hval : (packIVal p xs + 2 ^ (p - 1) * (pgeom p size : Int)).toNat =
      packNVal p (xs.map (fun x => (x + 2 ^ (p - 1)).toNat)) := by
    omega
  rw [hval, sdigitList_eq,
    digitsList_packNVal p size _
      (by
        intro u hu
        obtain ⟨x, hx, rfl⟩ := List.mem_map.mp hu
        have h1 := (hin x hx).1
        have h2 := (hin x hx).2
        omega)
      (by simp [hlen]),
    List.map_map]
  have : ∀ x ∈ xs, ((fun d : Nat => (d : Int) - 2 ^ (p - 1)) ∘
      (fun x : Int => (x + 2 ^ (p - 1)).toNat)) x = id x := by
    intro x hx
    have := (hin x hx).1
    simp only [Function.comp_apply, id_eq]
    omega
  rw [List.map_congr_left this, List.map_id]

theorem packIVal_of_sdigitList (p size u : Nat) (hu : u < 2 ^ (size * p)) :
    packIVal p (sdigitList p size u) =
      (u : Int) - 2 ^ (p - 1) * (pgeom p size : Int) := by
  rw [packIVal_sdigitList, packNVal_digitsList p size u hu]

theorem sroundtrip_ok (nbits size : Nat) (xs : List Int) (h1 : 1 ≤ size)
    (h2 : size < nbits) (hlen : xs.length = size)
    (hin : ∀ x ∈ xs, spk_min nbits size ≤ x ∧ x ≤ spk_max nbits size) :
    sroundtrip nbits size xs = .ok xs := by
  unfold sroundtrip
  rw [spack_ok nbits size xs h1 h2 hlen hin, PRes.bind_ok]
  rcases eq_or_lt_of_le h1 with hs1 | hs2
  · -- size = 1: the unpacker special-cases the full-range slot
    subst hs1
    obtain ⟨x, rfl⟩ : ∃ x, xs = [x] := List.length_eq_one.mp (by omega)
    have hpb : spk_pbits nbits 1 = nbits := by unfold spk_pbits; simp
    have hx := hin x (List.mem_cons_self x [])
    unfold spk_min spk_max at hx
    rw [hpb] at hx
    have hpack : packIVal (spk_pbits nbits 1) [x] = x := by
      simp [packIVal]
    rw [hpack]
    unfold sunpack signed_bit_unpacker_impl.init
    rw [if_neg (by omega : ¬ nbits ≤ 1), if_neg (by omega : ¬ (1 : Nat) = 0),
      if_pos rfl, PRes.bind_ok]
    rw [signed_bit_unpacker_impl.popList]
    rw [signed_pop_ok nbits _ (by dsimp only; omega), PRes.bind_ok]
    dsimp only
    rw [signed_bit_unpacker_impl.popList, PRes.bind_ok]
    have hv : (0 % 2 ^ (0 + 0) / 2 ^ 0 + toUnsigned nbits x) % 2 ^ nbits =
        toUnsigned nbits x := by
      simp [Nat.mod_eq_of_lt (toUnsigned_lt nbits x)]
    rw [hv, toSigned_toUnsigned nbits x (by omega) hx.1 hx.2]
  · -- 2 ≤ size
    have hp : 1 ≤ spk_pbits nbits size := spk_pbits_pos nbits size h1 h2
    have hminN : (sbp_compute_minmax_packed nbits size).1 ≤ packIVal (spk_pbits nbits size) xs := by
      rw [sbp_minmax_eq nbits size hs2 h2]
      have := packIVal_ge (spk_pbits nbits size) (spk_min nbits size) xs
        (fun x hx => (hin x hx).1)
      rw [hlen] at this
      exact this
    have hmaxN : packIVal (spk_pbits nbits size) xs ≤ (sbp_compute_minmax_packed nbits size).2 := by
      rw [sbp_minmax_eq nbits size hs2 h2]
      have := packIVal_le (spk_pbits nbits size) (spk_max nbits size) xs
        (fun x hx => (hin x hx).2)
      rw [hlen] at this
      exact this
    rw [sunpack_ok2 nbits size _ hs2 h2 hminN hmaxN]
    have harg : packIVal (spk_pbits nbits size) xs - (sbp_compute_minmax_packed nbits size).1 =
        packIVal (spk_pbits nbits size) xs +
          2 ^ (spk_pbits nbits size - 1) * (pgeom (spk_pbits nbits size) size : Int) := by
      rw [sbp_minmax_eq nbits size hs2 h2]
      unfold spk_min
      ring
    rw [harg]
    rw [sdigitList_of_packIVal (spk_pbits nbits size) size hp xs hlen
      (fun x hx => by
        have := hin x hx
        unfold spk_min spk_max at this
        exact this)]

theorem sunpack_one (nbits : Nat) (n : Int) (hnb : 1 < nbits)
    (hmin : -((2 : Int) ^ (nbits - 1)) ≤ n) (hmax : n ≤ 2 ^ (nbits - 1) - 1) :
    sunpack nbits 1 n = .ok [n] := by
  unfold sunpack signed_bit_unpacker_impl.init
  rw [if_neg (by omega : ¬ nbits ≤ 1), if_neg (by omega : ¬ (1 : Nat) = 0),
    if_pos rfl, PRes.bind_ok]
  rw [signed_bit_unpacker_impl.popList]
  rw [signed_pop_ok nbits _ (by dsimp only; omega), PRes.bind_ok]
  dsimp only
  rw [signed_bit_unpacker_impl.popList, PRes.bind_ok]
  have hv : (0 % 2 ^ (0 + 0) / 2 ^ 0 + toUnsigned nbits n) % 2 ^ nbits =
      toUnsigned nbits n := by
    simp [Nat.mod_eq_of_lt (toUnsigned_lt nbits n)]
  rw [hv, toSigned_toUnsigned nbits n (by omega) hmin hmax]

theorem spackOfUnpack_ok (nbits size : Nat) (n : Int) (h1 : 1 ≤ size)
    (h2 : size < nbits)
    (hmin : (sbp_compute_minmax_packed nbits size).1 ≤ n)
    (hmax : n ≤ (sbp_compute_minmax_packed nbits size).2) :
    spackOfUnpack nbits size n = .ok n := by
  unfold spackOfUnpack
  rcases eq_or_lt_of_le h1 with hs1 | hs2
  · subst hs1
    have htab : sbp_compute_minmax_packed nbits 1 =
        (-(2 ^ (nbits - 1) : Int), (2 ^ (nbits - 1) : Int) - 1) := by
      unfold sbp_compute_minmax_packed
      rw [if_pos (by omega)]
    rw [htab] at hmin hmax
    dsimp only at hmin hmax
    rw [sunpack_one nbits n (by omega) hmin hmax, PRes.bind_ok]
    have hpb : spk_pbits nbits 1 = nbits := by unfold spk_pbits; simp
    rw [spack_ok nbits 1 [n] (by omega) h2 rfl
      (fun x hx => by
        unfold spk_min spk_max
        rw [hpb]
        rcases List.mem_singleton.mp hx with rfl
        exact ⟨hmin, hmax⟩)]
    simp [packIVal]
  · rw [sunpack_ok2 nbits size n hs2 h2 hmin hmax, PRes.bind_ok]
    have hp : 1 ≤ spk_pbits nbits size := spk_pbits_pos nbits size h1 h2
    have hspread := sbp_minmax_spread nbits size hs2 h2
    have hcastp : (((2 : Nat) ^ (size * spk_pbits nbits size) : Nat) : Int) =
        2 ^ (size * spk_pbits nbits size) := by push_cast; ring
    have hu_lt : (n - (sbp_compute_minmax_packed nbits size).1).toNat <
        2 ^ (size * spk_pbits nbits size) := by omega
    rw [spack_ok nbits size _ h1 h2 (sdigitList_length _ _ _)
      (fun x hx => by
        have := sdigitList_mem_range (spk_pbits nbits size) size _ hp x hx
        unfold spk_min spk_max
        exact this)]
    rw [packIVal_of_sdigitList _ size _ hu_lt]
    have hcast : (((n - (sbp_compute_minmax_packed nbits size).1).toNat : Nat) : Int) =
        n - (sbp_compute_minmax_packed nbits size).1 :=
      Int.toNat_of_nonneg (by omega)
    rw [hcast]
    have hminN_eq : (sbp_compute_minmax_packed nbits size).1 =
        -((2 : Int) ^ (spk_pbits nbits size - 1)) *
          (pgeom (spk_pbits nbits size) size : Int) := by
      rw [sbp_minmax_eq nbits size hs2 h2]
      unfold spk_min
      rfl
    rw [hminN_eq]
    congr 1
    ring

theorem max_decodable_eq (nbits size : Nat) (_h1 : 1 ≤ size) :
    (2 ^ nbits - 1) / 2 ^ (nbits % size) = 2 ^ (size * (nbits / size)) - 1 := by
  have hle : size * (nbits / size) ≤ nbits := by
    rw [Nat.mul_comm]
    exact Nat.div_mul_le_self nbits size
  have e : nbits - size * (nbits / size) = nbits % size := by
    have hdm := Nat.div_add_mod nbits size
    set A := size * (nbits / size)
    omega
  calc (2 ^ nbits - 1) / 2 ^ (nbits % size)
      = (2 ^ nbits - 1) / 2 ^ (nbits - size * (nbits / size)) := by rw [e]
    _ = 2 ^ (size * (nbits / size)) - 1 := two_pow_sub_one_div nbits _ hle

theorem unsigned_pop_ok (st : unsigned_bit_unpacker_impl)
    (h : st.m_index ≠ st.m_size) :
    st.pop = .ok (st.m_value &&& st.m_mask,
      { st with m_index := st.m_index + 1,
                m_value := st.m_value >>> st.m_pbits }) := by
  unfold unsigned_bit_unpacker_impl.pop
  rw [if_neg h]

theorem unsigned_popList_ok (p r : Nat) : ∀ (v i k : Nat), i + r ≤ k →
    unsigned_bit_unpacker_impl.popList r ⟨v, 2 ^ p - 1, i, k, p⟩ =
      .ok (digitsList p r v) := by
  induction r with
  | zero =>
    intro v i k _
    simp [unsigned_bit_unpacker_impl.popList, digitsList]
  | succ r ih =>
    intro v i k h
    rw [unsigned_bit_unpacker_impl.popList]
    rw [unsigned_pop_ok _ (by dsimp only; omega), PRes.bind_ok]
    dsimp only
    rw [ih (v >>> p) (i + 1) k (by omega), PRes.bind_ok]
    rw [digitsList, Nat.and_pow_two_sub_one_eq_mod, Nat.shiftRight_eq_div_pow]

theorem uunpack_ok (nbits size n : Nat) (h1 : 1 ≤ size) (h2 : size ≤ nbits)
    (hn : n ≤ (2 ^ nbits - 1) / 2 ^ (nbits % size)) :
    uunpack nbits size n = .ok (digitsList (nbits / size) size n) := by
  unfold uunpack unsigned_bit_unpacker_impl.init
  rw [if_neg (by omega : ¬ nbits < size), if_neg (by omega : ¬ size = 0),
    if_neg (not_lt.mpr hn), PRes.bind_ok, upk_max_eq nbits size]
  rcases eq_or_ne size 1 with hs1 | hs2
  · subst hs1
    rw [if_pos rfl]
    rw [max_decodable_eq nbits 1 (by omega)] at hn
    have hlt : n < 2 ^ nbits := by
      have hpos := Nat.two_pow_pos nbits
      simp only [Nat.one_mul, Nat.div_one] at hn
      omega
    rw [unsigned_bit_unpacker_impl.popList]
    rw [unsigned_pop_ok _ (by dsimp only; omega), PRes.bind_ok]
    dsimp only
    rw [unsigned_bit_unpacker_impl.popList, PRes.bind_ok]
    unfold upk_max
    rw [Nat.div_one, Nat.and_pow_two_sub_one_eq_mod, Nat.mod_eq_of_lt hlt]
    simp [digitsList, Nat.div_one, Nat.mod_eq_of_lt hlt]
  · rw [if_neg hs2]
    unfold upk_max
    exact unsigned_popList_ok (nbits / size) size n 0 size (by omega)

theorem uroundtrip_ok (nbits size : Nat) (xs : List Nat) (h1 : 1 ≤ size)
    (h2 : size ≤ nbits) (hlen : xs.length = size)
    (hin : ∀ x ∈ xs, x ≤ upk_max nbits size) :
    uroundtrip nbits size xs = .ok xs := by
  unfold uroundtrip
  rw [upack_ok nbits size xs h1 h2 hlen hin, PRes.bind_ok]
  have hlt : ∀ x ∈ xs, x < 2 ^ (nbits / size) := by
    intro x hx
    have := hin x hx
    unfold upk_max at this
    have hpos := Nat.two_pow_pos (nbits / size)
    omega
  have hn : packNVal (nbits / size) xs ≤ (2 ^ nbits - 1) / 2 ^ (nbits % size) := by
    rw [max_decodable_eq nbits size h1]
    have := packNVal_lt (nbits / size) xs hlt
    rw [hlen] at this
    omega
  rw [uunpack_ok nbits size _ h1 h2 hn]
  rw [digitsList_packNVal _ size xs hlt hlen]

theorem upackOfUnpack_ok (nbits size n : Nat) (h1 : 1 ≤ size) (h2 : size ≤ nbits)
    (hn : n ≤ (2 ^ nbits - 1) / 2 ^ (nbits % size)) :
    upackOfUnpack nbits size n = .ok n := by
  unfold upackOfUnpack
  rw [uunpack_ok nbits size n h1 h2 hn, PRes.bind_ok]
  have hnlt : n < 2 ^ (size * (nbits / size)) := by
    rw [max_decodable_eq nbits size h1] at hn
    have hpos := Nat.two_pow_pos (size * (nbits / size))
    omega
  rw [upack_ok nbits size _ h1 h2 (digitsList_length _ _ _)
    (fun x hx => by
      have := digitsList_lt (nbits / size) size n x hx
      unfold upk_max
      omega)]
  rw [packNVal_digitsList _ size n hnlt]

theorem signed_init_err_iff (nbits size : Nat) (n : Int) (h1 : 1 ≤ size)
    (h2 : size < nbits) (hrep1 : -(2 ^ (nbits - 1) : Int) ≤ n)
    (hrep2 : n ≤ 2 ^ (nbits - 1) - 1) :
    signed_bit_unpacker_impl.init nbits n size = .err .overflow ↔
      ¬ ((sbp_compute_minmax_packed nbits size).1 ≤ n ∧
         n ≤ (sbp_compute_minmax_packed nbits size).2) := by
  unfold signed_bit_unpacker_impl.init
  rw [if_neg (by omega : ¬ nbits ≤ size), if_neg (by omega : ¬ size = 0)]
  rcases eq_or_ne size 1 with hs1 | hs2
  · subst hs1
    rw [if_pos rfl]
    have htab : sbp_compute_minmax_packed nbits 1 =
        (-(2 ^ (nbits - 1) : Int), (2 ^ (nbits - 1) : Int) - 1) := by
      unfold sbp_compute_minmax_packed
      rw [if_pos (by omega)]
    rw [htab]
    apply iff_of_false
    · intro hcon
      exact PRes.noConfusion hcon
    · push_neg
      refine ⟨?_, ?_⟩
      · dsimp only
        omega
      · dsimp only
        omega
  · rw [if_neg hs2]
    by_cases hc : n < (sbp_compute_minmax_packed nbits size).1 ∨
        (sbp_compute_minmax_packed nbits size).2 < n
    · rw [if_pos hc]
      apply iff_of_true rfl
      push_neg
      intro hcon
      omega
    · rw [if_neg hc]
      push_neg at hc
      apply iff_of_false
      · intro hcon
        exact PRes.noConfusion hcon
      · push_neg
        exact hc

theorem unsigned_init_err_iff (nbits size n : Nat) (h1 : 1 ≤ size)
    (h2 : size ≤ nbits) :
    unsigned_bit_unpacker_impl.init nbits n size = .err .overflow ↔
      ¬ (n ≤ (2 ^ nbits - 1) / 2 ^ (nbits % size)) := by
  unfold unsigned_bit_unpacker_impl.init
  rw [if_neg (by omega : ¬ nbits < size), if_neg (by omega : ¬ size = 0)]
  by_cases hc : (2 ^ nbits - 1) / 2 ^ (nbits % size) < n
  · rw [if_pos hc]
    exact iff_of_true rfl (by omega)
  · rw [if_neg hc]
    apply iff_of_false
    · intro hcon
      exact PRes.noConfusion hcon
    · omega

theorem packNVal_replicate (p k c : Nat) :
    packNVal p (List.replicate k c) = c * pgeom p k := by
  induction k with
  | zero => simp [packNVal, pgeom]
  | succ k ih =>
    rw [List.replicate_succ]
    unfold packNVal pgeom
    rw [ih]
    ring

theorem packNVal_replicate_max (p k : Nat) :
    packNVal p (List.replicate k (2 ^ p - 1)) = 2 ^ (k * p) - 1 := by
  have h := pgeom_mul_int p k
  have h1 : (1 : Nat) ≤ 2 ^ p := Nat.one_le_two_pow
  have h2 : (1 : Nat) ≤ 2 ^ (k * p) := Nat.one_le_two_pow
  have hcast : ((packNVal p (List.replicate k (2 ^ p - 1)) : Nat) : Int) =
      (((2 : Nat) ^ (k * p) - 1 : Nat) : Int) := by
    rw [packNVal_replicate]
    push_cast [h1, h2]
    linear_combination h
  exact_mod_cast hcast

/-- Run a signed packer construction followed by a sequence of pushes:
the state reached mid-way through a packing. -/
def spacker_run (nbits size : Nat) (xs : List Int) : PRes signed_bit_packer_impl :=
  (signed_bit_packer_impl.init nbits size).bind fun st => st.pushList xs

/-- Check that a packing prefix succeeds and leaves the accumulator
`m_value` inside the representable range of the signed type `T`. -/
def accInRange (nbits size : Nat) (xs : List Int) : Bool :=
  match spacker_run nbits size xs with
  | .ok st =>
    decide (-(2 ^ (nbits - 1) : Int) ≤ st.m_value ∧ st.m_value ≤ 2 ^ (nbits - 1) - 1)
  | .err _ => false

theorem accInRange_of_bounds (nbits size : Nat) (xs : List Int) (h2s : 2 ≤ size)
    (hlt : size < nbits) (hlen : xs.length ≤ size)
    (hin : ∀ x ∈ xs, spk_min nbits size ≤ x ∧ x ≤ spk_max nbits size) :
    accInRange nbits size xs = true := by
  unfold accInRange spacker_run
  rw [signed_bit_packer_impl.init_ok nbits size (by omega) hlt, PRes.bind_ok]
  rw [signed_pushList_ok xs 0 _ _ 0 size (spk_pbits nbits size) 0 (by omega) hin]
  dsimp only
  rw [decide_eq_true_eq]
  have hp : 1 ≤ spk_pbits nbits size := spk_pbits_pos nbits size (by omega) hlt
  have hmul := spk_size_mul_lt nbits size h2s hlt
  have hlo := packIVal_ge (spk_pbits nbits size) (spk_min nbits size) xs
    (fun x hx => (hin x hx).1)
  have hhi := packIVal_le (spk_pbits nbits size) (spk_max nbits size) xs
    (fun x hx => (hin x hx).2)
  have hb := pgeom_bound (spk_pbits nbits size) xs.length hp
  have hg : (0 : Int) ≤ (pgeom (spk_pbits nbits size) xs.length : Int) := by positivity
  have hpowle : (2 : Int) ^ (xs.length * spk_pbits nbits size) ≤ 2 ^ (nbits - 1) := by
    apply pow_le_pow_right₀ (by norm_num)
    have : xs.length * spk_pbits nbits size ≤ size * spk_pbits nbits size :=
      Nat.mul_le_mul_right _ hlen
    omega
  have hmin_e : spk_min nbits size * (pgeom (spk_pbits nbits size) xs.length : Int) =
      -(2 ^ (spk_pbits nbits size - 1) * (pgeom (spk_pbits nbits size) xs.length : Int)) := by
    unfold spk_min
    ring
  have hmax_e : spk_max nbits size ≤ (2 ^ (spk_pbits nbits size - 1) : Int) := by
    unfold spk_max
    omega
  constructor
  · rw [hmin_e] at hlo
    rw [pow_zero, mul_one, zero_add]
    nlinarith [hb, hlo]
  · rw [pow_zero, mul_one, zero_add]
    have : packIVal (spk_pbits nbits size) xs ≤
        (2 ^ (spk_pbits nbits size - 1) : Int) *
          (pgeom (spk_pbits nbits size) xs.length : Int) := by
      calc packIVal (spk_pbits nbits size) xs
          ≤ spk_max nbits size * (pgeom (spk_pbits nbits size) xs.length : Int) := hhi
        _ ≤ (2 ^ (spk_pbits nbits size - 1) : Int) *
              (pgeom (spk_pbits nbits size) xs.length : Int) :=
            mul_le_mul_of_nonneg_right hmax_e hg
    omega

/-- C4: for every packable word type (signed widths `nbits` with
`1 ≤ k < nbits`, unsigned widths with `1 ≤ k ≤ nbits`) and every length-`k`
vector of exponents in the per-slot range `[lo, hi]`, pushing the values in
order into a `bit_packer` of size `k`, finalizing, and popping `k` values
from a `bit_unpacker` on the packed word returns the original vector in
order, with no error at any step. -/
theorem claim_C4 :
    (∀ (nbits size : Nat) (xs : List Int), 1 ≤ size → size < nbits →
      xs.length = size →
      (∀ x ∈ xs, spk_min nbits size ≤ x ∧ x ≤ spk_max nbits size) →
      sroundtrip nbits size xs = .ok xs) ∧
    (∀ (nbits size : Nat) (xs : List Nat), 1 ≤ size → size ≤ nbits →
      xs.length = size →
      (∀ x ∈ xs, x ≤ upk_max nbits size) →
      uroundtrip nbits size xs = .ok xs) :=
  ⟨sroundtrip_ok, uroundtrip_ok⟩

theorem claim_C4_witness :
    sroundtrip 8 3 [1, -2, 0] = .ok [1, -2, 0] ∧
    uroundtrip 8 3 [3, 0, 2] = .ok [3, 0, 2] :=
  ⟨claim_C4.1 8 3 [1, -2, 0] (by norm_num) (by norm_num) rfl (by decide),
   claim_C4.2 8 3 [3, 0, 2] (by norm_num) (by norm_num) rfl (by decide)⟩

/-- C5: pushing an out-of-range value into a packer that still has room
always signals `OverflowError`; since the throwing branch returns before
any assignment, the packer state (accumulator, push count, shift cursor)
is exactly what it was before the failed push. -/
theorem claim_C5 :
    (∀ (st : signed_bit_packer_impl) (n : Int), st.m_index < st.m_size →
      n < st.m_min ∨ st.m_max < n → st.push n = .err .overflow) ∧
    (∀ (st : unsigned_bit_packer_impl) (nbits n : Nat), st.m_index < st.m_size →
      st.m_max < n → st.push nbits n = .err .overflow) := by
  constructor
  · intro st n hidx hr
    unfold signed_bit_packer_impl.push
    rw [if_neg (by omega), if_pos hr]
  · intro st nbits n hidx hr
    unfold unsigned_bit_packer_impl.push
    rw [if_neg (by omega), if_pos hr]

theorem claim_C5_witness :
    signed_bit_packer_impl.push ⟨0, -4, 3, 0, 2, 3, 0⟩ 5 = .err .overflow ∧
    unsigned_bit_packer_impl.push ⟨0, 15, 0, 2, 4, 0⟩ 8 16 = .err .overflow :=
  ⟨claim_C5.1 ⟨0, -4, 3, 0, 2, 3, 0⟩ 5 (by norm_num) (Or.inr (by norm_num)),
   claim_C5.2 ⟨0, 15, 0, 2, 4, 0⟩ 8 16 (by norm_num) (by norm_num)⟩

/-- C7: for a signed packer of size `k ≥ 2`, pushing any prefix of in-range
values never overflows the word: the construction and all pushes succeed
and every intermediate accumulator value stays inside the representable
range of `T` (guaranteed by the reserved bit in the per-slot width
derivation), so the packing arithmetic is well-defined. -/
theorem claim_C7 (nbits size : Nat) (xs : List Int) (h2s : 2 ≤ size)
    (hlt : size < nbits) (hlen : xs.length ≤ size)
    (hin : ∀ x ∈ xs, spk_min nbits size ≤ x ∧ x ≤ spk_max nbits size) :
    accInRange nbits size xs = true :=
  accInRange_of_bounds nbits size xs h2s hlt hlen hin

theorem claim_C7_witness : accInRange 8 3 [1, -2] = true :=
  claim_C7 8 3 [1, -2] (by norm_num) (by norm_num) (by norm_num) (by decide)

/-- C6: for a valid arity `k ≥ 1`, constructing an unpacker on a word `n`
signals `OverflowError` exactly when `n` lies outside the closed interval
whose endpoints are the packed encodings of `k` copies of `lo` resp. `hi`
(for signed types these are the rows of the precomputed min/max table);
a word inside the interval is accepted. -/
theorem claim_C6 :
    (∀ (nbits size : Nat) (n : Int), 1 ≤ size → size < nbits →
      -(2 ^ (nbits - 1) : Int) ≤ n → n ≤ 2 ^ (nbits - 1) - 1 →
      (signed_bit_unpacker_impl.init nbits n size = .err .overflow ↔
        ¬ ((sbp_compute_minmax_packed nbits size).1 ≤ n ∧
           n ≤ (sbp_compute_minmax_packed nbits size).2)) ∧
      spack nbits size (List.replicate size (spk_min nbits size)) =
        .ok (sbp_compute_minmax_packed nbits size).1 ∧
      spack nbits size (List.replicate size (spk_max nbits size)) =
        .ok (sbp_compute_minmax_packed nbits size).2) ∧
    (∀ (nbits size n : Nat), 1 ≤ size → size ≤ nbits → n ≤ 2 ^ nbits - 1 →
      (unsigned_bit_unpacker_impl.init nbits n size = .err .overflow ↔
        ¬ (0 ≤ n ∧ n ≤ (2 ^ nbits - 1) / 2 ^ (nbits % size))) ∧
      upack nbits size (List.replicate size 0) = .ok 0 ∧
      upack nbits size (List.replicate size (upk_max nbits size)) =
        .ok ((2 ^ nbits - 1) / 2 ^ (nbits % size))) := by
  constructor
  · intro nbits size n h1 h2 hrep1 hrep2
    refine ⟨signed_init_err_iff nbits size n h1 h2 hrep1 hrep2, ?_, ?_⟩
    · rcases eq_or_lt_of_le h1 with hs1 | hs2
      · subst hs1
        rw [List.replicate_one,
          spack_ok nbits 1 _ (by omega) h2 (by simp)
            (fun x hx => by
              rcases List.mem_singleton.mp hx with rfl
              exact ⟨le_refl _, spk_min_le_max nbits 1⟩)]
        unfold sbp_compute_minmax_packed
        rw [if_pos (by omega)]
        unfold spk_min spk_pbits
        simp [packIVal]
      · rw [spack_ok nbits size _ h1 h2 (List.length_replicate size _)
          (fun x hx => by
            rw [List.eq_of_mem_replicate hx]
            exact ⟨le_refl _, spk_min_le_max nbits size⟩),
          packIVal_replicate, sbp_minmax_eq nbits size hs2 h2]
    · rcases eq_or_lt_of_le h1 with hs1 | hs2
      · subst hs1
        rw [List.replicate_one,
          spack_ok nbits 1 _ (by omega) h2 (by simp)
            (fun x hx => by
              rcases List.mem_singleton.mp hx with rfl
              exact ⟨spk_min_le_max nbits 1, le_refl _⟩)]
        unfold sbp_compute_minmax_packed
        rw [if_pos (by omega)]
        unfold spk_max spk_pbits
        simp [packIVal]
      · rw [spack_ok nbits size _ h1 h2 (List.length_replicate size _)
          (fun x hx => by
            rw [List.eq_of_mem_replicate hx]
            exact ⟨spk_min_le_max nbits size, le_refl _⟩),
          packIVal_replicate, sbp_minmax_eq nbits size hs2 h2]
  · intro nbits size n h1 h2 hrep
    refine ⟨?_, ?_, ?_⟩
    · rw [unsigned_init_err_iff nbits size n h1 h2]
      constructor
      · intro h hcon
        exact h hcon.2
      · intro h hcon
        exact h ⟨Nat.zero_le n, hcon⟩
    · rw [upack_ok nbits size _ h1 h2 (List.length_replicate size _)
        (fun x hx => by
          rw [List.eq_of_mem_replicate hx]
          exact Nat.zero_le _),
        packNVal_replicate]
      simp
    · rw [upack_ok nbits size _ h1 h2 (List.length_replicate size _)
        (fun x hx => by
          rw [List.eq_of_mem_replicate hx]),
        max_decodable_eq nbits size h1]
      unfold upk_max
      rw [packNVal_replicate_max]

theorem claim_C6_witness :
    ((signed_bit_unpacker_impl.init 8 (-60) 3 = .err .overflow ↔
      ¬ ((sbp_compute_minmax_packed 8 3).1 ≤ -60 ∧
         -60 ≤ (sbp_compute_minmax_packed 8 3).2)) ∧
     spack 8 3 (List.replicate 3 (spk_min 8 3)) =
       .ok (sbp_compute_minmax_packed 8 3).1 ∧
     spack 8 3 (List.replicate 3 (spk_max 8 3)) =
       .ok (sbp_compute_minmax_packed 8 3).2) ∧
    ((unsigned_bit_unpacker_impl.init 8 70 3 = .err .overflow ↔
      ¬ (0 ≤ 70 ∧ 70 ≤ (2 ^ 8 - 1) / 2 ^ (8 % 3))) ∧
     upack 8 3 (List.replicate 3 0) = .ok 0 ∧
     upack 8 3 (List.replicate 3 (upk_max 8 3)) = .ok ((2 ^ 8 - 1) / 2 ^ (8 % 3))) :=
  ⟨claim_C6.1 8 3 (-60) (by norm_num) (by norm_num) (by norm_num) (by norm_num),
   claim_C6.2 8 3 70 (by norm_num) (by norm_num) (by norm_num)⟩

/-- C10: packing after unpacking is the identity on every word the
unpacker accepts: popping the `k` values of an accepted word and pushing
them, in order, into a fresh packer of arity `k` succeeds (so every popped
value lies in the per-slot range) and finalizes to exactly the original
word. -/
theorem claim_C10 :
    (∀ (nbits size : Nat) (n : Int), 1 ≤ size → size < nbits →
      (sbp_compute_minmax_packed nbits size).1 ≤ n →
      n ≤ (sbp_compute_minmax_packed nbits size).2 →
      spackOfUnpack nbits size n = .ok n) ∧
    (∀ (nbits size n : Nat), 1 ≤ size → size ≤ nbits →
      n ≤ (2 ^ nbits - 1) / 2 ^ (nbits % size) →
      upackOfUnpack nbits size n = .ok n) :=
  ⟨spackOfUnpack_ok, upackOfUnpack_ok⟩

theorem claim_C10_witness :
    spackOfUnpack 8 3 (-30) = .ok (-30) ∧ upackOfUnpack 8 3 50 = .ok 50 :=
  ⟨claim_C10.1 8 3 (-30) (by norm_num) (by norm_num) (by decide) (by decide),
   claim_C10.2 8 3 50 (by norm_num) (by norm_num) (by norm_num)⟩

/-! Polynomial layer.  The implementation files of the multipliers, of
`pow` and of the packed-monomial `key_merge_symbols` are not part of this
repository slice, so the definitions below are modelled from the
specification (spec.md, sections 3, 4.B, 4.D, 4.E, 4.F). -/

/-- Modelled from the spec: a monomial is the vector of exponents encoded
by a packed word (spec section 3, "Packed monomial"); exponents are signed
for Laurent-style polynomials. -/
abbrev Monom : Type := List Int

/-- Modelled from the spec: a term of a polynomial, a monomial with its
coefficient over the exact integer coefficient ring. -/
abbrev PTerm : Type := Monom × Int

/-- Modelled from the spec: a polynomial is a collection of terms (spec
section 3, "Polynomial"); the list order is unobservable. -/
abbrev polyT : Type := List PTerm

/-- Modelled from the spec: monomial multiplication adds exponent vectors
element-wise (spec section 4.B, `monomial_multiply`). -/
def monomial_mul (a b : Monom) : Monom := List.zipWith (fun x y => x + y) a b

/-- Modelled from the spec: `partial_degree(m, idx_set)` is the sum of the
exponents at the given indices of the symbol set (spec section 4.B). -/
def p_degree (m : Monom) (idxs : List Nat) : Int :=
  (idxs.map (fun i => m.getD i 0)).sum

/-- Modelled from the spec: `insert_or_accumulate(m, c)` of the polynomial
container (spec section 4.D): an existing term with the same monomial has
its coefficient accumulated, a zero sum removes the entry, and a fresh
non-zero coefficient is inserted. -/
def series_add_term : polyT → Monom → Int → polyT
  | [], m, c => if c = 0 then [] else [(m, c)]
  | t :: ts, m, c =>
    if t.1 = m then (if t.2 + c = 0 then ts else (m, t.2 + c) :: ts)
    else t :: series_add_term ts m c

/-- Coefficient of a monomial in a polynomial: the observable value of the
container (summing duplicates, which canonical polynomials never have). -/
def coeffOf : polyT → Monom → Int
  | [], _ => 0
  | t :: ts, m => (if t.1 = m then t.2 else 0) + coeffOf ts m

/-- All pairs of a term of `f` with a term of `g`: the iteration space of
the multiplier. -/
def all_pairs : polyT → polyT → List (PTerm × PTerm)
  | [], _ => []
  | t :: ts, g => g.map (fun tg => (t, tg)) ++ all_pairs ts g

/-- One step of the multiplier: compute the product term and insert it,
unless the truncation predicate rejects its monomial (spec section 4.E). -/
def mul_step (pred : Monom → Bool) (acc : polyT) (pr : PTerm × PTerm) : polyT :=
  if pred (monomial_mul pr.1.1 pr.2.1) then
    series_add_term acc (monomial_mul pr.1.1 pr.2.1) (pr.1.2 * pr.2.2)
  else acc

/-- Modelled from the spec: the single-threaded reference multiplier
`poly_mul_impl_simple` (spec section 4.E): iterate over all pairs
`(t_f, t_g)`, apply the truncation predicate to `m_f · m_g`, and
`insert_or_accumulate` the product term into the (empty) destination. -/
def poly_mul_impl_simple (f g : polyT) (pred : Monom → Bool) : polyT :=
  (all_pairs f g).foldl (mul_step pred) []

/-- Modelled from the spec: the parallel segmented multiplier
`poly_mul_impl_mt_hm` (spec section 4.F): the output space is split into
`2 ^ nseg` segments, the pairs whose product monomial hashes to segment
`σ` are accumulated into a per-segment table (with the same truncation
predicate), and the segments are stitched together at the end. -/
def poly_mul_impl_mt_hm (hash : Monom → Nat) (nseg : Nat) (f g : polyT)
    (pred : Monom → Bool) : polyT :=
  ((List.range (2 ^ nseg)).map (fun σ =>
    ((all_pairs f g).filter
      (fun pr => hash (monomial_mul pr.1.1 pr.2.1) % 2 ^ nseg = σ)).foldl
      (mul_step pred) [])).flatten

/-- Modelled from the spec: the truncation predicate retains a monomial
product `m` iff `partial_degree(m, idx(S)) ≤ d` (spec section 4.E). -/
def trunc_pred (d : Int) (idxs : List Nat) : Monom → Bool :=
  fun m => decide (p_degree m idxs ≤ d)

/-- Convolution sum: total coefficient contributed to monomial `m` by a
list of term pairs under a truncation predicate. -/
def conv_sum (pred : Monom → Bool) : List (PTerm × PTerm) → Monom → Int
  | [], _ => 0
  | pr :: rest, m =>
    (if monomial_mul pr.1.1 pr.2.1 = m ∧ pred m = true then pr.1.2 * pr.2.2 else 0) +
      conv_sum pred rest m

theorem coeffOf_series_add_term (p : polyT) (m : Monom) (c : Int) (m' : Monom) :
    coeffOf (series_add_term p m c) m' =
      coeffOf p m' + (if m = m' then c else 0) := by
  induction p with
  | nil =>
    rcases eq_or_ne c 0 with hc | hc
    · subst hc
      simp [series_add_term, coeffOf]
    · rw [series_add_term, if_neg hc]
      rcases eq_or_ne m m' with he | he
      · subst he
        simp [coeffOf]
      · simp [coeffOf, he, Ne.symm he]
  | cons t ts ih =>
    rw [series_add_term]
    rcases eq_or_ne t.1 m with ht | ht
    · rw [if_pos ht]
      rcases eq_or_ne (t.2 + c) 0 with hz | hz
      · rw [if_pos hz]
        rcases eq_or_ne m m' with he | he
        · subst he
          simp [coeffOf, ht]
          omega
        · rw [coeffOf, if_neg (show t.1 ≠ m' by rw [ht]; exact he), if_neg he]
          ring
      · rw [if_neg hz]
        rcases eq_or_ne m m' with he | he
        · subst he
          simp [coeffOf, ht]
          ring
        · rw [coeffOf, coeffOf,
            if_neg (show ((m, t.2 + c) : PTerm).1 ≠ m' from he),
            if_neg (show t.1 ≠ m' by rw [ht]; exact he), if_neg he]
          ring
    · rw [if_neg ht]
      rcases eq_or_ne m m' with he | he
      · subst he
        simp only [coeffOf, ih]
        ring
      · simp only [coeffOf, ih]
        ring

theorem coeffOf_foldl (pred : Monom → Bool) (prs : List (PTerm × PTerm)) :
    ∀ (acc : polyT) (m : Monom),
    coeffOf (prs.foldl (mul_step pred) acc) m = coeffOf acc m + conv_sum pred prs m := by
  induction prs with
  | nil =>
    intro acc m
    simp [conv_sum]
  | cons pr rest ih =>
    intro acc m
    rw [List.foldl_cons, ih, conv_sum]
    unfold mul_step
    rcases eq_or_ne (monomial_mul pr.1.1 pr.2.1) m with hm | hm
    · subst hm
      by_cases hp : pred (monomial_mul pr.1.1 pr.2.1) = true
      · rw [if_pos hp, coeffOf_series_add_term, if_pos rfl, if_pos ⟨rfl, hp⟩]
        ring
      · rw [if_neg hp, if_neg (fun hcon => hp hcon.2)]
        ring
    · by_cases hp : pred (monomial_mul pr.1.1 pr.2.1) = true
      · rw [if_pos hp, coeffOf_series_add_term, if_neg hm,
          if_neg (fun hcon => hm hcon.1)]
        ring
      · rw [if_neg hp, if_neg (fun hcon => hm hcon.1)]
        ring

theorem conv_sum_filter (pred : Monom → Bool) (hash : Monom → Nat) (N σ : Nat)
    (prs : List (PTerm × PTerm)) (m : Monom) :
    conv_sum pred
      (prs.filter (fun pr => hash (monomial_mul pr.1.1 pr.2.1) % N = σ)) m =
      if hash m % N = σ then conv_sum pred prs m else 0 := by
  induction prs with
  | nil => simp [conv_sum]
  | cons pr rest ih =>
    rw [List.filter_cons]
    by_cases hq : hash (monomial_mul pr.1.1 pr.2.1) % N = σ
    · rw [if_pos (by simpa using hq), conv_sum, ih]
      by_cases hσ : hash m % N = σ
      · rw [if_pos hσ, if_pos hσ, conv_sum]
      · rw [if_neg hσ, if_neg hσ, add_zero]
        rw [if_neg (fun hcon => hσ (by rw [← hcon.1]; exact hq))]
    · rw [if_neg (by simpa using hq), ih]
      by_cases hσ : hash m % N = σ
      · rw [if_pos hσ, if_pos hσ, conv_sum]
        rw [if_neg (fun hcon => hq (by rw [hcon.1]; exact hσ))]
        ring
      · rw [if_neg hσ, if_neg hσ]

theorem coeffOf_append (p q : polyT) (m : Monom) :
    coeffOf (p ++ q) m = coeffOf p m + coeffOf q m := by
  induction p with
  | nil => simp [coeffOf]
  | cons t ts ih =>
    rw [List.cons_append, coeffOf, coeffOf, ih]
    ring

theorem coeffOf_flatten (ps : List polyT) (m : Monom) :
    coeffOf ps.flatten m = (ps.map (fun p => coeffOf p m)).sum := by
  induction ps with
  | nil => simp [coeffOf]
  | cons p ps ih => simp [List.flatten_cons, coeffOf_append, ih]

theorem sum_ite_single (v : Nat) (X : Int) (l : List Nat) (hnd : l.Nodup)
    (hv : v ∈ l) :
    (l.map (fun σ => if v = σ then X else 0)).sum = X := by
  induction l with
  | nil => simp at hv
  | cons a l ih =>
    rcases List.mem_cons.mp hv with rfl | hmem
    · rw [List.map_cons, List.sum_cons, if_pos rfl]
      have hnot : v ∉ l := (List.nodup_cons.mp hnd).1
      have : (l.map (fun σ => if v = σ then X else 0)).sum = 0 := by
        apply List.sum_eq_zero
        intro x hx
        obtain ⟨σ, hσ, rfl⟩ := List.mem_map.mp hx
        rw [if_neg (fun hcon => hnot (by rw [hcon]; exact hσ))]
      rw [this, add_zero]
    · have hne : a ≠ v := by
        rintro rfl
        exact (List.nodup_cons.mp hnd).1 hmem
      rw [List.map_cons, List.sum_cons, if_neg (fun hcon => hne hcon.symm),
        zero_add]
      exact ih (List.nodup_cons.mp hnd).2 hmem

/-- C1: the single-threaded simple multiplier and the parallel segmented
multiplier agree: for every segment count, every hash function, every
truncation predicate (including the trivial one, i.e. no truncation) and
every pair of operands, the two results assign the same coefficient to
every monomial, hence are equal as sets of non-zero terms. -/
theorem claim_C1 (hash : Monom → Nat) (nseg : Nat) (f g : polyT)
    (pred : Monom → Bool) (m : Monom) :
    coeffOf (poly_mul_impl_mt_hm hash nseg f g pred) m =
      coeffOf (poly_mul_impl_simple f g pred) m := by
  unfold poly_mul_impl_mt_hm poly_mul_impl_simple
  rw [coeffOf_flatten, List.map_map]
  have hmap : ∀ σ ∈ List.range (2 ^ nseg),
      ((fun p => coeffOf p m) ∘ (fun σ =>
        ((all_pairs f g).filter
          (fun pr => hash (monomial_mul pr.1.1 pr.2.1) % 2 ^ nseg = σ)).foldl
          (mul_step pred) [])) σ =
      (fun σ => if hash m % 2 ^ nseg = σ then conv_sum pred (all_pairs f g) m
        else 0) σ := by
    intro σ _
    simp only [Function.comp_apply]
    rw [coeffOf_foldl, conv_sum_filter]
    simp [coeffOf]
  rw [List.map_congr_left hmap,
    sum_ite_single _ _ _ (List.nodup_range _)
      (List.mem_range.mpr (Nat.mod_lt _ (Nat.two_pow_pos nseg))),
    coeffOf_foldl]
  simp [coeffOf]

theorem conv_sum_trunc (pred : Monom → Bool) (prs : List (PTerm × PTerm))
    (m : Monom) :
    conv_sum pred prs m =
      if pred m = true then conv_sum (fun _ => true) prs m else 0 := by
  induction prs with
  | nil => simp [conv_sum]
  | cons pr rest ih =>
    rw [conv_sum, conv_sum, ih]
    by_cases hp : pred m = true
    · rw [if_pos hp, if_pos hp]
      rcases eq_or_ne (monomial_mul pr.1.1 pr.2.1) m with hm | hm
      · rw [if_pos ⟨hm, hp⟩, if_pos ⟨hm, rfl⟩]
      · rw [if_neg (fun hcon => hm hcon.1), if_neg (fun hcon => hm hcon.1)]
    · rw [if_neg hp, if_neg hp, if_neg (fun hcon => hp hcon.2), add_zero]

/-- C2: the truncated product contains a non-zero term at monomial `m`
exactly when the full product has a non-zero term there and the partial
degree of `m` over the index set does not exceed the bound; exponents at
positions outside the set do not count. -/
theorem claim_C2 (f g : polyT) (d : Int) (idxs : List Nat) (m : Monom) :
    coeffOf (poly_mul_impl_simple f g (trunc_pred d idxs)) m ≠ 0 ↔
      (coeffOf (poly_mul_impl_simple f g (fun _ => true)) m ≠ 0 ∧
        p_degree m idxs ≤ d) := by
  unfold poly_mul_impl_simple
  rw [coeffOf_foldl, coeffOf_foldl]
  simp only [coeffOf, zero_add]
  rw [conv_sum_trunc]
  by_cases hp : trunc_pred d idxs m = true
  · rw [if_pos hp]
    have hd : p_degree m idxs ≤ d := by
      have := hp
      unfold trunc_pred at this
      exact of_decide_eq_true this
    constructor
    · intro h
      exact ⟨h, hd⟩
    · intro h
      exact h.1
  · rw [if_neg hp]
    have hd : ¬ p_degree m idxs ≤ d := by
      intro hcon
      exact hp (by unfold trunc_pred; exact decide_eq_true hcon)
    constructor
    · intro h
      exact absurd rfl h
    · intro h
      exact absurd h.2 hd

theorem mem_all_pairs (f g : polyT) (pr : PTerm × PTerm)
    (h : pr ∈ all_pairs f g) : pr.1 ∈ f ∧ pr.2 ∈ g := by
  induction f with
  | nil => simp [all_pairs] at h
  | cons t ts ih =>
    unfold all_pairs at h
    rcases List.mem_append.mp h with hl | hr
    · obtain ⟨tg, htg, rfl⟩ := List.mem_map.mp hl
      exact ⟨List.mem_cons_self _ _, htg⟩
    · obtain ⟨h1, h2⟩ := ih hr
      exact ⟨List.mem_cons_of_mem _ h1, h2⟩

theorem getD_nonneg (l : List Int) (h : ∀ e ∈ l, (0 : Int) ≤ e) (i : Nat) :
    0 ≤ l.getD i 0 := by
  induction l generalizing i with
  | nil => simp [List.getD]
  | cons x xs ih =>
    match i with
    | 0 => exact h x (List.mem_cons_self x xs)
    | i + 1 =>
      simp only [List.getD_cons_succ]
      exact ih (fun e he => h e (List.mem_cons_of_mem x he)) i

theorem monomial_mul_nonneg (a : Monom) : ∀ (b : Monom),
    (∀ e ∈ a, (0 : Int) ≤ e) → (∀ e ∈ b, (0 : Int) ≤ e) →
    ∀ e ∈ monomial_mul a b, (0 : Int) ≤ e := by
  induction a with
  | nil => intro b _ _ e he; simp [monomial_mul] at he
  | cons x xs ih =>
    intro b ha hb e he
    match b with
    | [] => simp [monomial_mul] at he
    | y :: ys =>
      unfold monomial_mul at he
      rw [List.zipWith_cons_cons] at he
      rcases List.mem_cons.mp he with rfl | hmem
      · have h1 := ha x (List.mem_cons_self x xs)
        have h2 := hb y (List.mem_cons_self y ys)
        omega
      · exact ih ys (fun e he => ha e (List.mem_cons_of_mem x he))
          (fun e he => hb e (List.mem_cons_of_mem y he)) e hmem

theorem p_degree_nonneg (m : Monom) (idxs : List Nat)
    (h : ∀ e ∈ m, (0 : Int) ≤ e) : 0 ≤ p_degree m idxs := by
  unfold p_degree
  apply List.sum_nonneg
  intro x hx
  obtain ⟨i, _, rfl⟩ := List.mem_map.mp hx
  exact getD_nonneg m h i

theorem foldl_no_insert (pred : Monom → Bool) (prs : List (PTerm × PTerm))
    (hp : ∀ pr ∈ prs, pred (monomial_mul pr.1.1 pr.2.1) = false) :
    ∀ acc : polyT, prs.foldl (mul_step pred) acc = acc := by
  induction prs with
  | nil => intro acc; rfl
  | cons pr rest ih =>
    intro acc
    rw [List.foldl_cons]
    have hstep : mul_step pred acc pr = acc := by
      unfold mul_step
      rw [if_neg (by
        rw [hp pr (List.mem_cons_self pr rest)]
        exact Bool.false_ne_true)]
    rw [hstep, ih (fun q hq => hp q (List.mem_cons_of_mem pr hq))]

theorem flatten_nil_of_all_nil {α : Type} (ps : List (List α))
    (h : ∀ p ∈ ps, p = []) : ps.flatten = [] := by
  induction ps with
  | nil => rfl
  | cons p ps ih =>
    rw [List.flatten_cons, h p (List.mem_cons_self p ps),
      ih (fun q hq => h q (List.mem_cons_of_mem p hq))]
    rfl

/-- C3 counterexample: the claim "any `d < 0` yields an empty result" is
false for Laurent monomials (which the signed packed representation
supports): with `f = g = x⁻¹` and truncation `d = -1` over the single
symbol, the product term `x⁻²` has partial degree `-2 ≤ -1` and is
retained, so the result is not empty (for either multiplier). -/
theorem claim_C3_counterexample :
    poly_mul_impl_simple [([-1], 1)] [([-1], 1)] (trunc_pred (-1) [0]) ≠
      ([] : polyT) ∧
    poly_mul_impl_mt_hm (fun _ => 0) 0 [([-1], 1)] [([-1], 1)]
      (trunc_pred (-1) [0]) ≠ ([] : polyT) := by
  constructor
  · decide
  · decide

/-- C3 (amended): for polynomials whose exponents are all non-negative
(ordinary, non-Laurent polynomials), a truncated multiplication with any
negative bound `d < 0` yields an empty result, for both the simple and
the parallel multiplier. -/
theorem claim_C3 (f g : polyT) (d : Int) (idxs : List Nat) (hash : Monom → Nat)
    (nseg : Nat) (hd : d < 0)
    (hf : ∀ t ∈ f, ∀ e ∈ t.1, (0 : Int) ≤ e)
    (hg : ∀ t ∈ g, ∀ e ∈ t.1, (0 : Int) ≤ e) :
    poly_mul_impl_simple f g (trunc_pred d idxs) = [] ∧
    poly_mul_impl_mt_hm hash nseg f g (trunc_pred d idxs) = [] := by
  have hp : ∀ pr ∈ all_pairs f g,
      trunc_pred d idxs (monomial_mul pr.1.1 pr.2.1) = false := by
    intro pr hpr
    obtain ⟨h1, h2⟩ := mem_all_pairs f g pr hpr
    have hnn := monomial_mul_nonneg pr.1.1 pr.2.1 (hf _ h1) (hg _ h2)
    have hdeg := p_degree_nonneg _ idxs hnn
    unfold trunc_pred
    rw [decide_eq_false (by omega)]
  constructor
  · exact foldl_no_insert _ _ hp []
  · unfold poly_mul_impl_mt_hm
    apply flatten_nil_of_all_nil
    intro p hpmem
    obtain ⟨σ, _, rfl⟩ := List.mem_map.mp hpmem
    exact foldl_no_insert _ _
      (fun pr hpr => hp pr (List.mem_of_mem_filter hpr)) []

theorem claim_C3_witness :
    poly_mul_impl_simple [([1], 1)] [([1], 1)] (trunc_pred (-1) [0]) = [] ∧
    poly_mul_impl_mt_hm (fun _ => 0) 0 [([1], 1)] [([1], 1)]
      (trunc_pred (-1) [0]) = [] :=
  claim_C3 [([1], 1)] [([1], 1)] (-1) [0] (fun _ => 0) 0 (by norm_num)
    (by decide) (by decide)

/-- Modelled from the spec: per-slot maximum over the exponents of the
terms of a polynomial (spec section 4.F, overflow pre-check). -/
def slot_max (f : polyT) (i : Nat) : Int :=
  match f.map (fun t => t.1.getD i 0) with
  | [] => 0
  | x :: xs => xs.foldl max x

/-- Modelled from the spec: per-slot minimum over the exponents of the
terms of a polynomial (spec section 4.F, overflow pre-check). -/
def slot_min (f : polyT) (i : Nat) : Int :=
  match f.map (fun t => t.1.getD i 0) with
  | [] => 0
  | x :: xs => xs.foldl min x

/-- Modelled from the spec: the multiplier's overflow pre-check (spec
section 4.F): for every slot the sums of the operands' per-slot minima
resp. maxima must respect the per-slot range `[lo, hi]` of the packed
representation; an empty operand needs no check. -/
def mul_precheck (lo hi : Int) (k : Nat) (f g : polyT) : Bool :=
  f.isEmpty || g.isEmpty ||
    (List.range k).all (fun i =>
      decide (lo ≤ slot_min f i + slot_min g i) &&
      decide (slot_max f i + slot_max g i ≤ hi))

/-- Modelled from the spec: a multiplication guarded by the overflow
pre-check.  A failed pre-check signals `OverflowError` eagerly, before
any output is produced, so the destination stays empty. -/
def poly_mul_checked (lo hi : Int) (k : Nat) (f g : polyT) : PRes polyT :=
  if mul_precheck lo hi k f g then .ok (poly_mul_impl_simple f g (fun _ => true))
  else .err .overflow

/-- The constant polynomial `1` over `k` symbols. -/
def poly_one (k : Nat) : polyT := [(List.replicate k 0, 1)]

/-- Modelled from the spec: `pow(p, N)` as iterated checked
multiplication; the spec specifies `pow` only at its contract boundary,
where it forwards the multiplier's `OverflowError` (spec sections 1 and
4.F). -/
def poly_pow (lo hi : Int) (k : Nat) (p : polyT) : Nat → PRes polyT
  | 0 => .ok (poly_one k)
  | n + 1 => (poly_pow lo hi k p n).bind fun q => poly_mul_checked lo hi k q p

/-- C8: if computing some power of `p` requires a per-slot exponent
outside the representable packed range — that is, the pre-check of some
multiplication step signals `OverflowError` — then `pow(p, N)` for every
larger exponent `N` also raises `OverflowError`, and, the result being an
error, no partial output is produced: the destination polynomial is left
empty, as before the call. -/
theorem claim_C8 (lo hi : Int) (k : Nat) (p : polyT) (j N : Nat)
    (hj : poly_pow lo hi k p j = .err .overflow) (hjN : j ≤ N) :
    poly_pow lo hi k p N = .err .overflow := by
  induction N with
  | zero =>
    have hz : j = 0 := by omega
    subst hz
    exact hj
  | succ N ih =>
    rcases eq_or_lt_of_le hjN with he | hlt
    · rw [he] at hj
      exact hj
    · have hN := ih (by omega)
      rw [poly_pow, hN, PRes.bind_err]

theorem claim_C8_witness : poly_pow (-8) 7 1 [([4], 1)] 3 = .err .overflow :=
  claim_C8 (-8) 7 1 [([4], 1)] 2 3 (by decide) (by norm_num)

/-- Modelled from the spec: `key_merge_symbols` for a packed monomial
given as its exponent vector (spec section 4.B): the insertion map is
represented by the number of new symbols inserted before each position of
the original symbol set (with one extra entry for insertion at the end),
and the merged key interleaves zero exponents at those positions. -/
def key_merge_symbols (ins : List Nat) (m : List Int) : List Int :=
  match ins, m with
  | c :: cs, e :: es => List.replicate c 0 ++ e :: key_merge_symbols cs es
  | c :: _, [] => List.replicate c 0
  | [], es => es

theorem key_merge_symbols_inj (m1 : List Int) : ∀ (ins : List Nat) (m2 : List Int),
    m1.length = m2.length →
    key_merge_symbols ins m1 = key_merge_symbols ins m2 → m1 = m2 := by
  induction m1 with
  | nil =>
    intro ins m2 hlen _
    match m2 with
    | [] => rfl
    | _ :: _ => simp at hlen
  | cons e1 es1 ih =>
    intro ins m2 hlen heq
    match m2 with
    | [] => simp at hlen
    | e2 :: es2 =>
      match ins with
      | [] => exact heq
      | c :: cs =>
        unfold key_merge_symbols at heq
        have htail := List.append_cancel_left heq
        injection htail with h1 h2
        rw [h1, ih cs es2 (by simpa using hlen) h2]

theorem mem_key_merge_symbols (m : List Int) : ∀ (ins : List Nat) (x : Int),
    x ∈ m → x ∈ key_merge_symbols ins m := by
  induction m with
  | nil => intro ins x hx; simp at hx
  | cons e es ih =>
    intro ins x hx
    match ins with
    | [] => exact hx
    | c :: cs =>
      unfold key_merge_symbols
      rcases List.mem_cons.mp hx with rfl | hmem
      · exact List.mem_append_right _ (List.mem_cons_self _ _)
      · exact List.mem_append_right _ (List.mem_cons_of_mem _ (ih cs x hmem))

/-- C9: for keys over the same symbol set (equal arity) and a fixed
insertion map, `key_merge_symbols` preserves inequality — unequal keys
have unequal merged images — and preserves non-zeroness: a key with some
non-zero exponent keeps a non-zero exponent after the merge. -/
theorem claim_C9 (ins : List Nat) (m1 m2 : List Int)
    (hlen : m1.length = m2.length) :
    (m1 ≠ m2 → key_merge_symbols ins m1 ≠ key_merge_symbols ins m2) ∧
    (m1.any (fun e => decide (e ≠ 0)) = true →
      (key_merge_symbols ins m1).any (fun e => decide (e ≠ 0)) = true) := by
  constructor
  · intro hne heq
    exact hne (key_merge_symbols_inj m1 ins m2 hlen heq)
  · intro hany
    obtain ⟨e, he, hne⟩ := List.any_eq_true.mp hany
    exact List.any_eq_true.mpr ⟨e, mem_key_merge_symbols m1 ins e he, hne⟩

theorem claim_C9_witness :
    (([2] : List Int) ≠ [3] →
      key_merge_symbols [1, 0] [2] ≠ key_merge_symbols [1, 0] [3]) ∧
    (([2] : List Int).any (fun e => decide (e ≠ 0)) = true →
      (key_merge_symbols [1, 0] [2]).any (fun e => decide (e ≠ 0)) = true) :=
  claim_C9 [1, 0] [2] [3] rfl
